import Mathlib

/-!
Verification of the duplicate-detection engine of `lsdup`
(src/lsdup/filevisitor.rs, lenhash.rs, devino.rs).

Shallow embedding conventions:
* paths are `String`, file contents are byte lists (`List Nat`);
* the 256-bit blake3 digest is an abstract parameter `d : List Nat → List Nat`
  (every theorem holds for an arbitrary digest function);
* `BTreeMap` is an association list; for `hash_files_map`, whose iteration
  order is observable through `IntoIterator`, the list is kept sorted in
  ascending `Ord`-order of `LenHash` (which is descending length order);
* `u64`/`u32` arithmetic wraps, written with explicit `% 2 ^ 64` / `% 2 ^ 32`;
* the filesystem visible to one run is a fixed snapshot
  `fs : String → Option FileInfo`; `fs p = none` models a metadata (stat)
  failure for path `p`, and `hashOk = false` models an I/O failure
  (open/read/map) whenever the hasher is invoked on that path;
* terminal/progress-bar output and `eprintln!` logging have no effect on the
  engine state and are not modelled.
-/

/-- Model of `LenHash` (lenhash.rs): file length together with the 32-byte
content digest. -/
structure LenHash where
  len : Nat
  hash : List Nat
deriving DecidableEq, Repr

/-- Model of `DevIno` (devino.rs): device and inode number identifying the
underlying storage object. -/
structure DevIno where
  dev : Nat
  ino : Nat
deriving DecidableEq, Repr

/-- Model of `LinkedFile` (filevisitor.rs): record stored per hard-linked
dev+inode; only its presence is ever consulted. -/
structure LinkedFile where
  len : Nat
  hash : Option (List Nat)
  first : Option String
deriving DecidableEq, Repr

/-- `LinkedFile::init`. -/
def LinkedFile.init (len : Nat) (first : String) : LinkedFile :=
  { len := len, hash := none, first := some first }

/-- Metadata-and-contents snapshot of one path, as the run observes it.
`hashOk = false` means any attempt to hash this path fails with an I/O
error. -/
structure FileInfo where
  contents : List Nat
  nlink : Nat
  dev : Nat
  ino : Nat
  hashOk : Bool
deriving DecidableEq, Repr

/-- Lexicographic comparison of byte lists, mirroring `Ord` on Rust's
`[u8; 32]` (the two digests always have equal length). -/
def listCmp : List Nat → List Nat → Ordering
  | [], [] => .eq
  | [], _ :: _ => .lt
  | _ :: _, [] => .gt
  | x :: xs, y :: ys => (compare x y).then (listCmp xs ys)

/-- `impl Ord for LenHash` (lenhash.rs): compares `other` with `self`, so the
order is largest-to-smallest, first by length, then by digest bytes. -/
def lhCmp (a b : LenHash) : Ordering :=
  (compare b.len a.len).then (listCmp b.hash a.hash)

/-- Spec-level strict lexicographic order on byte lists. -/
def lexLt : List Nat → List Nat → Prop
  | [], [] => False
  | [], _ :: _ => True
  | _ :: _, [] => False
  | x :: xs, y :: ys => x < y ∨ (x = y ∧ lexLt xs ys)

instance : (x y : List Nat) → Decidable (lexLt x y)
  | [], [] => isFalse (fun h => h)
  | [], _ :: _ => isTrue trivial
  | _ :: _, [] => isFalse (fun h => h)
  | x :: xs, y :: ys =>
    have : Decidable (lexLt xs ys) := instDecidableLexLt xs ys
    inferInstanceAs (Decidable (_ ∨ _))

theorem natCmp_eq_iff {a b : Nat} : compare a b = .eq ↔ a = b := by
  simp [Nat.compare_eq_eq]

theorem natCmp_lt_iff {a b : Nat} : compare a b = .lt ↔ a < b := by
  simp [Nat.compare_eq_lt]

theorem natCmp_gt_iff {a b : Nat} : compare a b = .gt ↔ b < a := by
  simp [Nat.compare_eq_gt]

theorem listCmp_eq_iff : ∀ {x y : List Nat}, listCmp x y = .eq ↔ x = y := by
  intro x
  induction x with
  | nil => intro y; cases y <;> simp [listCmp]
  | cons a xs ih =>
    intro y
    cases y with
    | nil => simp [listCmp]
    | cons b ys =>
      simp [listCmp, Ordering.then_eq_eq, natCmp_eq_iff, ih]

theorem listCmp_lt_iff : ∀ {x y : List Nat}, listCmp x y = .lt ↔ lexLt x y := by
  intro x
  induction x with
  | nil => intro y; cases y <;> simp [listCmp, lexLt]
  | cons a xs ih =>
    intro y
    cases y with
    | nil => simp [listCmp, lexLt]
    | cons b ys =>
      simp [listCmp, lexLt, Ordering.then_eq_lt, natCmp_lt_iff,
        natCmp_eq_iff, ih]

theorem listCmp_gt_iff_swap : ∀ {x y : List Nat},
    listCmp x y = .gt ↔ listCmp y x = .lt := by
  intro x
  induction x with
  | nil => intro y; cases y <;> simp [listCmp]
  | cons a xs ih =>
    intro y
    cases y with
    | nil => simp [listCmp]
    | cons b ys =>
      simp only [listCmp, Ordering.then_eq_gt, Ordering.then_eq_lt,
        natCmp_gt_iff, natCmp_lt_iff, natCmp_eq_iff, ih]
      exact or_congr Iff.rfl (and_congr_left (fun _ => eq_comm))

theorem lexLt_trans : ∀ {x y z : List Nat}, lexLt x y → lexLt y z → lexLt x z := by
  intro x
  induction x with
  | nil =>
    intro y z hxy hyz
    cases y with
    | nil => exact absurd hxy (by simp [lexLt])
    | cons b ys =>
      cases z with
      | nil => exact absurd hyz (by simp [lexLt])
      | cons c zs => trivial
  | cons a xs ih =>
    intro y z hxy hyz
    cases y with
    | nil => exact absurd hxy (by simp [lexLt])
    | cons b ys =>
      cases z with
      | nil => exact absurd hyz (by simp [lexLt])
      | cons c zs =>
        rcases hxy with h1 | ⟨h1, h1l⟩ <;> rcases hyz with h2 | ⟨h2, h2l⟩
        · exact Or.inl (Nat.lt_trans h1 h2)
        · exact Or.inl (h2 ▸ h1)
        · exact Or.inl (h1 ▸ h2)
        · exact Or.inr ⟨h1.trans h2, ih h1l h2l⟩

theorem lhCmp_eq_iff {a b : LenHash} : lhCmp a b = .eq ↔ a = b := by
  cases a with
  | mk al ah =>
    cases b with
    | mk bl bh =>
      simp only [lhCmp, Ordering.then_eq_eq, natCmp_eq_iff, listCmp_eq_iff,
        LenHash.mk.injEq]
      constructor
      · rintro ⟨h1, h2⟩; exact ⟨h1.symm, h2.symm⟩
      · rintro ⟨h1, h2⟩; exact ⟨h1.symm, h2.symm⟩

/-- `lhCmp a b = .lt` is exactly the spec ordering rule: descending length,
ties broken by descending digest bytes. -/
theorem lhCmp_lt_iff {a b : LenHash} :
    lhCmp a b = .lt ↔ b.len < a.len ∨ (b.len = a.len ∧ lexLt b.hash a.hash) := by
  simp [lhCmp, Ordering.then_eq_lt, natCmp_lt_iff, natCmp_eq_iff, listCmp_lt_iff]

theorem lhCmp_gt_iff_swap {a b : LenHash} :
    lhCmp a b = .gt ↔ lhCmp b a = .lt := by
  simp only [lhCmp, Ordering.then_eq_gt, Ordering.then_eq_lt,
    natCmp_gt_iff, natCmp_lt_iff, natCmp_eq_iff, listCmp_gt_iff_swap]
  exact or_congr Iff.rfl (and_congr_left (fun _ => eq_comm))

theorem lhCmp_lt_trans {a b c : LenHash} :
    lhCmp a b = .lt → lhCmp b c = .lt → lhCmp a c = .lt := by
  intro h1 h2
  rw [lhCmp_lt_iff] at h1 h2 ⊢
  rcases h1 with h1 | ⟨h1, h1l⟩ <;> rcases h2 with h2 | ⟨h2, h2l⟩
  · exact Or.inl (Nat.lt_trans h2 h1)
  · exact Or.inl (h2 ▸ h1)
  · exact Or.inl (h1 ▸ h2)
  · exact Or.inr ⟨h2.trans h1, lexLt_trans h2l h1l⟩

theorem lhCmp_lt_ne {a b : LenHash} (h : lhCmp a b = .lt) : a ≠ b := by
  intro he
  subst he
  rw [lhCmp_eq_iff.mpr rfl] at h
  exact absurd h (by simp)

/-- Lookup in an association list (the map behaviour of `BTreeMap::get`). -/
def lookupA {α β : Type} [DecidableEq α] : List (α × β) → α → Option β
  | [], _ => none
  | (k, v) :: rest, a => if k = a then some v else lookupA rest a

/-- Insert-or-replace in an association list (the map behaviour of
`BTreeMap::insert`). -/
def insertA {α β : Type} [DecidableEq α] : List (α × β) → α → β → List (α × β)
  | [], a, b => [(a, b)]
  | (k, v) :: rest, a, b =>
    if k = a then (a, b) :: rest else (k, v) :: insertA rest a b

theorem lookupA_insertA {α β : Type} [DecidableEq α]
    (m : List (α × β)) (a x : α) (b : β) :
    lookupA (insertA m a b) x = if a = x then some b else lookupA m x := by
  induction m with
  | nil => simp [insertA, lookupA]
  | cons kv rest ih =>
    obtain ⟨k, v⟩ := kv
    by_cases hk : k = a
    · subst hk
      by_cases hx : k = x <;> simp [insertA, lookupA, hx]
    · by_cases hx : k = x
      · subst hx
        have : ¬ (a = k) := fun h => hk h.symm
        simp [insertA, lookupA, hk, this]
      · simp [insertA, lookupA, hk, hx, ih]

theorem lookupA_eq_none_of_forall {α β : Type} [DecidableEq α]
    (m : List (α × β)) (a : α) (h : ∀ e ∈ m, e.1 ≠ a) : lookupA m a = none := by
  induction m with
  | nil => rfl
  | cons kv rest ih =>
    obtain ⟨k, v⟩ := kv
    have hk : k ≠ a := h (k, v) (by simp)
    simp only [lookupA, if_neg hk]
    exact ih (fun e he => h e (by simp [he]))

theorem lookupA_some_mem {α β : Type} [DecidableEq α]
    {m : List (α × β)} {a : α} {b : β} (h : lookupA m a = some b) : (a, b) ∈ m := by
  induction m with
  | nil => simp [lookupA] at h
  | cons kv rest ih =>
    obtain ⟨k, v⟩ := kv
    by_cases hk : k = a
    · subst hk
      simp only [lookupA, if_pos rfl] at h
      cases h
      simp
    · simp only [lookupA, if_neg hk] at h
      simp [ih h]

/-- The `entry(hash).or_insert_with(Vec::new)` followed by `push` pattern of
filevisitor.rs, on an association list kept sorted in ascending `lhCmp`
order (the iteration order of `BTreeMap<LenHash, _>`). -/
def bucketPush (h : LenHash) (p : String) :
    List (LenHash × List String) → List (LenHash × List String)
  | [] => [(h, [p])]
  | (k, v) :: rest =>
    if lhCmp h k = .lt then (h, [p]) :: (k, v) :: rest
    else if lhCmp h k = .eq then (k, v ++ [p]) :: rest
    else (k, v) :: bucketPush h p rest

theorem bucketPush_keys (h : LenHash) (p : String) :
    ∀ {m : List (LenHash × List String)} e, e ∈ bucketPush h p m →
      e.1 = h ∨ ∃ e2 ∈ m, e.1 = e2.1 := by
  intro m
  induction m with
  | nil =>
    intro e he
    simp only [bucketPush, List.mem_singleton] at he
    subst he
    exact Or.inl rfl
  | cons kv rest ih =>
    obtain ⟨k, v⟩ := kv
    intro e he
    rcases o : lhCmp h k with _ | _ | _ <;> simp only [bucketPush, o] at he <;>
      simp only [reduceCtorEq, if_true, if_false, reduceIte, List.mem_cons] at he
    · rcases he with he | he | he
      · subst he; exact Or.inl rfl
      · subst he; exact Or.inr ⟨(k, v), by simp⟩
      · exact Or.inr ⟨e, by simp [he]⟩
    · rcases he with he | he
      · subst he; exact Or.inr ⟨(k, v), by simp⟩
      · exact Or.inr ⟨e, by simp [he]⟩
    · rcases he with he | he
      · subst he; exact Or.inr ⟨(k, v), by simp⟩
      · rcases ih e he with h1 | ⟨e2, he2, h2⟩
        · exact Or.inl h1
        · exact Or.inr ⟨e2, by simp [he2], h2⟩

theorem pairwise_bucketPush {m : List (LenHash × List String)}
    (hs : List.Pairwise (fun a b => lhCmp a.1 b.1 = .lt) m) (h : LenHash) (p : String) :
    List.Pairwise (fun a b => lhCmp a.1 b.1 = .lt) (bucketPush h p m) := by
  induction m with
  | nil => simp [bucketPush]
  | cons kv rest ih =>
    obtain ⟨k, v⟩ := kv
    rw [List.pairwise_cons] at hs
    obtain ⟨hk, hrest⟩ := hs
    rcases o : lhCmp h k with _ | _ | _ <;> simp only [bucketPush, o] <;>
      simp only [reduceCtorEq, if_true, if_false, reduceIte]
    · refine List.Pairwise.cons ?_ (List.pairwise_cons.mpr ⟨hk, hrest⟩)
      rintro e he
      rcases List.mem_cons.mp he with he1 | he1
      · subst he1; exact o
      · exact lhCmp_lt_trans o (hk e he1)
    · exact List.pairwise_cons.mpr ⟨hk, hrest⟩
    · refine List.pairwise_cons.mpr ⟨?_, ih hrest⟩
      intro e he
      rcases bucketPush_keys h p e he with h1 | ⟨e2, he2, h2⟩
      · rw [h1]
        exact lhCmp_gt_iff_swap.mp o
      · rw [h2]
        exact hk e2 he2

theorem lookupA_bucketPush_self {m : List (LenHash × List String)}
    (hs : List.Pairwise (fun a b => lhCmp a.1 b.1 = .lt) m) (h : LenHash) (p : String) :
    lookupA (bucketPush h p m) h = some ((lookupA m h).getD [] ++ [p]) := by
  induction m with
  | nil => simp [bucketPush, lookupA]
  | cons kv rest ih =>
    obtain ⟨k, v⟩ := kv
    rw [List.pairwise_cons] at hs
    obtain ⟨hk, hrest⟩ := hs
    rcases o : lhCmp h k with _ | _ | _ <;> simp only [bucketPush, o] <;>
      simp only [reduceCtorEq, if_true, if_false, reduceIte]
    · have hne : k ≠ h := fun he => lhCmp_lt_ne o he.symm
      have hnone : lookupA rest h = none := by
        refine lookupA_eq_none_of_forall rest h ?_
        intro e he heq
        exact lhCmp_lt_ne (lhCmp_lt_trans o (hk e he)) heq.symm
      simp [lookupA, hne, hnone]
    · have he : h = k := lhCmp_eq_iff.mp o
      subst he
      simp [lookupA]
    · have hne : k ≠ h := fun he => lhCmp_lt_ne (lhCmp_gt_iff_swap.mp o) he
      simp [lookupA, hne, ih hrest]

theorem lookupA_bucketPush_other {m : List (LenHash × List String)}
    (h x : LenHash) (p : String) (hx : x ≠ h) :
    lookupA (bucketPush h p m) x = lookupA m x := by
  have hne : ¬ (h = x) := fun he => hx he.symm
  induction m with
  | nil => simp [bucketPush, lookupA, hne]
  | cons kv rest ih =>
    obtain ⟨k, v⟩ := kv
    rcases o : lhCmp h k with _ | _ | _ <;> simp only [bucketPush, o] <;>
      simp only [reduceCtorEq, if_true, if_false, reduceIte]
    · simp [lookupA, hne]
    · have he : h = k := lhCmp_eq_iff.mp o
      subst he
      simp [lookupA, hne]
    · by_cases hkx : k = x <;> simp [lookupA, hkx, ih]

/-- Model of the incremental blake3 hasher state: the byte sequence fed so
far. `d` (the digest parameter) is applied at `finalize`. -/
def Hasher := List Nat

/-- `blake3::Hasher::new()`. -/
def Hasher.new : Hasher := []

/-- `hasher.update(bytes)`: feeds a chunk. -/
def Hasher.update (h : Hasher) (bytes : List Nat) : Hasher :=
  List.append h bytes

/-- `hasher.finalize()` under digest function `d`. -/
def Hasher.finalize (d : List Nat → List Nat) (h : Hasher) : List Nat := d h

/-- `hash_contents_file` (filevisitor.rs): streams the file through a
buffered read loop (`std::io::copy`); the OS delivers the contents as an
arbitrary sequence of chunks. -/
def hash_contents_file (d : List Nat → List Nat) (size : Nat)
    (chunks : List (List Nat)) : LenHash :=
  LenHash.mk size (Hasher.finalize d (chunks.foldl Hasher.update Hasher.new))

/-- `hash_contents_mmap` (filevisitor.rs): feeds the whole mapped region to
the hasher in one `update` call. -/
def hash_contents_mmap (d : List Nat → List Nat) (size : Nat)
    (contents : List Nat) : LenHash :=
  LenHash.mk size (Hasher.finalize d (Hasher.update Hasher.new contents))

/-- The size test of `hash_contents_path`:
`size >= 16384 && size <= isize::max_value() as u64` (64-bit target, so
`isize::MAX = 2^63 - 1`). -/
def usesMmap (size : Nat) : Bool :=
  decide (16384 ≤ size ∧ size ≤ 2 ^ 63 - 1)

/-- `hash_contents_path` (filevisitor.rs): opens the path, reads its length,
and dispatches on `usesMmap`. `none` models an `io::Result` error (open,
metadata, read or map failure), which the model attributes to the path's
`hashOk` flag; a path with no filesystem entry fails at `File::open`. -/
def hash_contents_path (d : List Nat → List Nat) (fs : String → Option FileInfo)
    (p : String) : Option LenHash :=
  match fs p with
  | none => none
  | some fi =>
    if fi.hashOk then
      let size := fi.contents.length
      some (if usesMmap size
            then hash_contents_mmap d size fi.contents
            else hash_contents_file d size [fi.contents])
    else none

/-- The `ContentIdentity` of a file: its length and the digest of its full
contents. -/
def lenHashOf (d : List Nat → List Nat) (fi : FileInfo) : LenHash :=
  LenHash.mk fi.contents.length (d fi.contents)

theorem hash_contents_mmap_eq (d : List Nat → List Nat) (size : Nat)
    (contents : List Nat) :
    hash_contents_mmap d size contents = LenHash.mk size (d contents) := by
  simp [hash_contents_mmap, Hasher.update, Hasher.new, Hasher.finalize]

theorem hash_contents_file_join (d : List Nat → List Nat) (size : Nat)
    (chunks : List (List Nat)) :
    hash_contents_file d size chunks = LenHash.mk size (d chunks.flatten) := by
  simp only [hash_contents_file, Hasher.finalize, LenHash.mk.injEq, true_and]
  congr 1
  have step : ∀ (cs : List (List Nat)) (acc : List Nat),
      cs.foldl Hasher.update acc = List.append acc cs.flatten := by
    intro cs
    induction cs with
    | nil => intro acc; simp [List.flatten]
    | cons c cs ih =>
      intro acc
      simp [List.flatten, Hasher.update, ih, List.append_assoc]
  simpa [Hasher.new] using step chunks []

theorem hash_contents_path_ok {d : List Nat → List Nat}
    {fs : String → Option FileInfo} {p : String} {fi : FileInfo}
    (hfs : fs p = some fi) (hok : fi.hashOk = true) :
    hash_contents_path d fs p = some (lenHashOf d fi) := by
  rw [hash_contents_path, hfs]
  simp only [hok, if_true]
  by_cases hm : usesMmap fi.contents.length <;>
    simp [hm, hash_contents_mmap_eq, hash_contents_file_join, lenHashOf]

theorem hash_contents_path_err {d : List Nat → List Nat}
    {fs : String → Option FileInfo} {p : String} {fi : FileInfo}
    (hfs : fs p = some fi) (hok : fi.hashOk = false) :
    hash_contents_path d fs p = none := by
  rw [hash_contents_path, hfs]
  simp [hok]

/-- Model of `AllInFileVisitor` (filevisitor.rs). The `config`,
`progress_bar` and `term` fields only drive terminal output and are not
modelled. `hashTrace` is ghost instrumentation: the list of paths passed to
`hash_contents_path`, in call order (the code itself keeps no such list). -/
structure AllInFileVisitor where
  size_firstfile_map : List (Nat × Option String)
  hash_files_map : List (LenHash × List String)
  hardlinks_map : List (DevIno × LinkedFile)
  total_file_bytes : Nat
  num_files : Nat
  hashTrace : List String
deriving DecidableEq, Repr

/-- `AllInFileVisitor::new`. -/
def AllInFileVisitor.new : AllInFileVisitor :=
  { size_firstfile_map := []
    hash_files_map := []
    hardlinks_map := []
    total_file_bytes := 0
    num_files := 0
    hashTrace := [] }

/-- `has_hardlinks` for `target_family = "unix"`: `meta.nlink() > 1`. -/
def has_hardlinks (fi : FileInfo) : Bool :=
  decide (1 < fi.nlink)

/-- `DevIno::from` for `target_family = "unix"`. -/
def DevIno.fromMeta (fi : FileInfo) : DevIno :=
  { dev := fi.dev, ino := fi.ino }

/-- `has_hardlinks` for `target_family = "windows"`: always `false`. -/
def has_hardlinks_windows (_fi : FileInfo) : Bool :=
  false

/-- `DevIno::from` for `target_family = "windows"`: constant `(0, 0)`. -/
def DevIno.fromMetaWindows (_fi : FileInfo) : DevIno :=
  { dev := 0, ino := 0 }

/-- The straight-line tail of `AllInFileVisitor::visit` after the hardlink
gate: increment the run counters (wrapping u64/u32 arithmetic), then apply
the size-bucket policy, hashing by `hash_contents_path` where the code
does. Every hasher invocation is appended to the ghost `hashTrace`. -/
def visitCounted (d : List Nat → List Nat) (fs : String → Option FileInfo)
    (s : AllInFileVisitor) (file : String) (fi : FileInfo) : AllInFileVisitor :=
  let size := fi.contents.length
  let s1 := { s with total_file_bytes := (s.total_file_bytes + size) % 2 ^ 64,
                     num_files := (s.num_files + 1) % 2 ^ 32 }
  match lookupA s1.size_firstfile_map size with
  | some inner =>
    let s2 :=
      match inner with
      | some original =>
        let st := { s1 with hashTrace := s1.hashTrace ++ [original] }
        match hash_contents_path d fs original with
        | some h =>
          { st with hash_files_map := bucketPush h original st.hash_files_map,
                    size_firstfile_map := insertA st.size_firstfile_map size none }
        | none => st
      | none => s1
    let s3 := { s2 with hashTrace := s2.hashTrace ++ [file] }
    match hash_contents_path d fs file with
    | some h => { s3 with hash_files_map := bucketPush h file s3.hash_files_map }
    | none => s3
  | none =>
    { s1 with size_firstfile_map := insertA s1.size_firstfile_map size (some file) }

/-- Model of `AllInFileVisitor::visit` (filevisitor.rs), parametrised by the
platform functions `hasHL` (`has_hardlinks`) and `dvi` (`DevIno::from`).
The two `file.metadata()` calls of the source observe the same snapshot
`fs file`; a stat failure logs and returns with no state change. -/
def visit (hasHL : FileInfo → Bool) (dvi : FileInfo → DevIno)
    (d : List Nat → List Nat) (fs : String → Option FileInfo)
    (s : AllInFileVisitor) (file : String) : AllInFileVisitor :=
  match fs file with
  | none => s
  | some fi =>
    if hasHL fi then
      match lookupA s.hardlinks_map (dvi fi) with
      | some _ => s
      | none =>
        let hm := insertA s.hardlinks_map (dvi fi) (LinkedFile.init fi.contents.length file)
        visitCounted d fs { s with hardlinks_map := hm } file fi
    else
      visitCounted d fs s file fi

/-- One engine run: the external walker feeds each discovered regular file
path to `visit`, in walk order. -/
def runState (hasHL : FileInfo → Bool) (dvi : FileInfo → DevIno)
    (d : List Nat → List Nat) (fs : String → Option FileInfo)
    (files : List String) : AllInFileVisitor :=
  files.foldl (visit hasHL dvi d fs) AllInFileVisitor.new

/-- `only_with_dupes` (filevisitor.rs): `x.1.len() > 1`. -/
def only_with_dupes (x : LenHash × List String) : Bool :=
  decide (1 < x.2.length)

/-- The `IntoIterator` of `&AllInFileVisitor`: the groups of
`hash_files_map`, in map order, filtered to those with at least two paths. -/
def dupGroups (s : AllInFileVisitor) : List (LenHash × List String) :=
  s.hash_files_map.filter only_with_dupes

/-- The admitted subsequence of a visit list: the files that pass the
metadata fetch and the hardlink gate, paired with their snapshots. `seen`
is the set of dev+inode pairs already recorded in `hardlinks_map`. -/
def admAux (hasHL : FileInfo → Bool) (dvi : FileInfo → DevIno)
    (fs : String → Option FileInfo) : List String → List DevIno → List (String × FileInfo)
  | [], _ => []
  | p :: rest, seen =>
    match fs p with
    | none => admAux hasHL dvi fs rest seen
    | some fi =>
      if hasHL fi then
        if dvi fi ∈ seen then admAux hasHL dvi fs rest seen
        else (p, fi) :: admAux hasHL dvi fs rest (dvi fi :: seen)
      else (p, fi) :: admAux hasHL dvi fs rest seen

/-- The dev+inode pairs recorded by a visit list, starting from `seen`. -/
def seenAux (hasHL : FileInfo → Bool) (dvi : FileInfo → DevIno)
    (fs : String → Option FileInfo) : List String → List DevIno → List DevIno
  | [], seen => seen
  | p :: rest, seen =>
    match fs p with
    | none => seenAux hasHL dvi fs rest seen
    | some fi =>
      if hasHL fi then
        if dvi fi ∈ seen then seenAux hasHL dvi fs rest seen
        else seenAux hasHL dvi fs rest (dvi fi :: seen)
      else seenAux hasHL dvi fs rest seen

/-- The admitted files of one whole run. -/
def admitted (hasHL : FileInfo → Bool) (dvi : FileInfo → DevIno)
    (fs : String → Option FileInfo) (files : List String) : List (String × FileInfo) :=
  admAux hasHL dvi fs files []

/-- The dev+inode pairs recorded by one whole run. -/
def seenOf (hasHL : FileInfo → Bool) (dvi : FileInfo → DevIno)
    (fs : String → Option FileInfo) (files : List String) : List DevIno :=
  seenAux hasHL dvi fs files []

/-- The admitted files of one size class, in admission order. -/
def classList (A : List (String × FileInfo)) (L : Nat) : List (String × FileInfo) :=
  A.filter (fun e => decide (e.2.contents.length = L))

/-- Reference value of `size_firstfile_map` at length `L`: no entry before
the first admitted file of that length; the first file's path while it is
the only one of its length (or while hashing it keeps failing); `None`
once the deferred first file has been hashed successfully. -/
def slotRef (A : List (String × FileInfo)) (L : Nat) : Option (Option String) :=
  match classList A L with
  | [] => none
  | e :: rest => some (if rest.isEmpty || !e.2.hashOk then some e.1 else none)

/-- Reference contents of the `hash_files_map` group keyed `h`: the
admitted, hashable files of size class `h.len` whose content identity is
`h`, in admission order, present only once the class has at least two
members. -/
def groupRef (d : List Nat → List Nat) (A : List (String × FileInfo))
    (h : LenHash) : List String :=
  if 2 ≤ (classList A h.len).length then
    ((classList A h.len).filter
      (fun e => e.2.hashOk && decide (lenHashOf d e.2 = h))).map Prod.fst
  else []

/-- A `BTreeMap` lookup result for a group: absent iff the group is empty. -/
def optList (l : List String) : Option (List String) :=
  if l.isEmpty then none else some l

/-- One unit of deferred hashing owed to path `p`: 1 exactly while `p` sits
in the pending-size slot of its length. -/
def slotDeduct (fs : String → Option FileInfo) (A : List (String × FileInfo))
    (p : String) : Nat :=
  match fs p with
  | none => 0
  | some fi => if slotRef A fi.contents.length = some (some p) then 1 else 0

theorem admAux_append (hasHL : FileInfo → Bool) (dvi : FileInfo → DevIno)
    (fs : String → Option FileInfo) (xs ys : List String) :
    ∀ seen, admAux hasHL dvi fs (xs ++ ys) seen =
      admAux hasHL dvi fs xs seen ++ admAux hasHL dvi fs ys (seenAux hasHL dvi fs xs seen) := by
  induction xs with
  | nil => intro seen; simp [admAux, seenAux]
  | cons p rest ih =>
    intro seen
    cases hfs : fs p with
    | none => simp [admAux, seenAux, hfs, ih]
    | some fi =>
      by_cases hl : hasHL fi
      · by_cases hm : dvi fi ∈ seen <;>
          simp [admAux, seenAux, hfs, hl, hm, ih]
      · simp [admAux, seenAux, hfs, hl, ih]

theorem seenAux_append (hasHL : FileInfo → Bool) (dvi : FileInfo → DevIno)
    (fs : String → Option FileInfo) (xs ys : List String) :
    ∀ seen, seenAux hasHL dvi fs (xs ++ ys) seen =
      seenAux hasHL dvi fs ys (seenAux hasHL dvi fs xs seen) := by
  induction xs with
  | nil => intro seen; simp [seenAux]
  | cons p rest ih =>
    intro seen
    cases hfs : fs p with
    | none => simp [seenAux, hfs, ih]
    | some fi =>
      by_cases hl : hasHL fi
      · by_cases hm : dvi fi ∈ seen <;>
          simp [seenAux, hfs, hl, hm, ih]
      · simp [seenAux, hfs, hl, ih]

theorem admAux_mem_fs (hasHL : FileInfo → Bool) (dvi : FileInfo → DevIno)
    (fs : String → Option FileInfo) :
    ∀ (files : List String) (seen : List DevIno) (p : String) (fi : FileInfo),
      (p, fi) ∈ admAux hasHL dvi fs files seen → fs p = some fi := by
  intro files
  induction files with
  | nil => intro seen p fi h; simp [admAux] at h
  | cons q rest ih =>
    intro seen p fi h
    cases hfs : fs q with
    | none =>
      simp only [admAux, hfs] at h
      exact ih seen p fi h
    | some fq =>
      simp only [admAux, hfs] at h
      by_cases hl : hasHL fq
      · rw [if_pos hl] at h
        by_cases hm : dvi fq ∈ seen
        · rw [if_pos hm] at h
          exact ih seen p fi h
        · rw [if_neg hm] at h
          rcases List.mem_cons.mp h with h1 | h1
          · rw [Prod.mk.injEq] at h1
            rw [h1.1, h1.2]
            exact hfs
          · exact ih _ p fi h1
      · rw [if_neg hl] at h
        rcases List.mem_cons.mp h with h1 | h1
        · rw [Prod.mk.injEq] at h1
          rw [h1.1, h1.2]
          exact hfs
        · exact ih seen p fi h1

theorem admAux_fst_sublist (hasHL : FileInfo → Bool) (dvi : FileInfo → DevIno)
    (fs : String → Option FileInfo) :
    ∀ (files : List String) (seen : List DevIno),
      ((admAux hasHL dvi fs files seen).map Prod.fst).Sublist files := by
  intro files
  induction files with
  | nil => intro seen; simp [admAux]
  | cons q rest ih =>
    intro seen
    cases hfs : fs q with
    | none =>
      simp only [admAux, hfs]
      exact (ih seen).cons q
    | some fq =>
      simp only [admAux, hfs]
      by_cases hl : hasHL fq
      · rw [if_pos hl]
        by_cases hm : dvi fq ∈ seen
        · rw [if_pos hm]
          exact (ih seen).cons q
        · rw [if_neg hm]
          simpa using (ih (dvi fq :: seen)).cons₂ q
      · rw [if_neg hl]
        simpa using (ih seen).cons₂ q

theorem visitCounted_noentry {d : List Nat → List Nat} {fs : String → Option FileInfo}
    {s : AllInFileVisitor} {file : String} {fi : FileInfo}
    (hl : lookupA s.size_firstfile_map fi.contents.length = none) :
    visitCounted d fs s file fi =
      { s with total_file_bytes := (s.total_file_bytes + fi.contents.length) % 2 ^ 64,
               num_files := (s.num_files + 1) % 2 ^ 32,
               size_firstfile_map :=
                 insertA s.size_firstfile_map fi.contents.length (some file) } := by
  cases s
  simp only [visitCounted] at *
  rw [hl]

theorem visitCounted_flushed_ok {d : List Nat → List Nat} {fs : String → Option FileInfo}
    {s : AllInFileVisitor} {file : String} {fi : FileInfo}
    (hl : lookupA s.size_firstfile_map fi.contents.length = some none)
    (hfs : fs file = some fi) (hok : fi.hashOk = true) :
    visitCounted d fs s file fi =
      { s with total_file_bytes := (s.total_file_bytes + fi.contents.length) % 2 ^ 64,
               num_files := (s.num_files + 1) % 2 ^ 32,
               hash_files_map := bucketPush (lenHashOf d fi) file s.hash_files_map,
               hashTrace := s.hashTrace ++ [file] } := by
  cases s
  simp only [visitCounted] at *
  rw [hl, hash_contents_path_ok hfs hok]

theorem visitCounted_flushed_err {d : List Nat → List Nat} {fs : String → Option FileInfo}
    {s : AllInFileVisitor} {file : String} {fi : FileInfo}
    (hl : lookupA s.size_firstfile_map fi.contents.length = some none)
    (hfs : fs file = some fi) (hok : fi.hashOk = false) :
    visitCounted d fs s file fi =
      { s with total_file_bytes := (s.total_file_bytes + fi.contents.length) % 2 ^ 64,
               num_files := (s.num_files + 1) % 2 ^ 32,
               hashTrace := s.hashTrace ++ [file] } := by
  cases s
  simp only [visitCounted] at *
  rw [hl, hash_contents_path_err hfs hok]

theorem visitCounted_pending_ok_ok {d : List Nat → List Nat} {fs : String → Option FileInfo}
    {s : AllInFileVisitor} {file orig : String} {fi fo : FileInfo}
    (hl : lookupA s.size_firstfile_map fi.contents.length = some (some orig))
    (ho : fs orig = some fo) (hoOk : fo.hashOk = true)
    (hfs : fs file = some fi) (hok : fi.hashOk = true) :
    visitCounted d fs s file fi =
      { s with total_file_bytes := (s.total_file_bytes + fi.contents.length) % 2 ^ 64,
               num_files := (s.num_files + 1) % 2 ^ 32,
               size_firstfile_map := insertA s.size_firstfile_map fi.contents.length none,
               hash_files_map :=
                 bucketPush (lenHashOf d fi) file
                   (bucketPush (lenHashOf d fo) orig s.hash_files_map),
               hashTrace := s.hashTrace ++ [orig, file] } := by
  cases s
  simp only [visitCounted] at *
  rw [hl]
  simp [hash_contents_path_ok ho hoOk, hash_contents_path_ok hfs hok]

theorem visitCounted_pending_ok_err {d : List Nat → List Nat} {fs : String → Option FileInfo}
    {s : AllInFileVisitor} {file orig : String} {fi fo : FileInfo}
    (hl : lookupA s.size_firstfile_map fi.contents.length = some (some orig))
    (ho : fs orig = some fo) (hoOk : fo.hashOk = true)
    (hfs : fs file = some fi) (hok : fi.hashOk = false) :
    visitCounted d fs s file fi =
      { s with total_file_bytes := (s.total_file_bytes + fi.contents.length) % 2 ^ 64,
               num_files := (s.num_files + 1) % 2 ^ 32,
               size_firstfile_map := insertA s.size_firstfile_map fi.contents.length none,
               hash_files_map := bucketPush (lenHashOf d fo) orig s.hash_files_map,
               hashTrace := s.hashTrace ++ [orig, file] } := by
  cases s
  simp only [visitCounted] at *
  rw [hl]
  simp [hash_contents_path_ok ho hoOk, hash_contents_path_err hfs hok]

theorem visitCounted_pending_err_ok {d : List Nat → List Nat} {fs : String → Option FileInfo}
    {s : AllInFileVisitor} {file orig : String} {fi fo : FileInfo}
    (hl : lookupA s.size_firstfile_map fi.contents.length = some (some orig))
    (ho : fs orig = some fo) (hoOk : fo.hashOk = false)
    (hfs : fs file = some fi) (hok : fi.hashOk = true) :
    visitCounted d fs s file fi =
      { s with total_file_bytes := (s.total_file_bytes + fi.contents.length) % 2 ^ 64,
               num_files := (s.num_files + 1) % 2 ^ 32,
               hash_files_map := bucketPush (lenHashOf d fi) file s.hash_files_map,
               hashTrace := s.hashTrace ++ [orig, file] } := by
  cases s
  simp only [visitCounted] at *
  rw [hl]
  simp [hash_contents_path_err ho hoOk, hash_contents_path_ok hfs hok]

theorem visitCounted_pending_err_err {d : List Nat → List Nat} {fs : String → Option FileInfo}
    {s : AllInFileVisitor} {file orig : String} {fi fo : FileInfo}
    (hl : lookupA s.size_firstfile_map fi.contents.length = some (some orig))
    (ho : fs orig = some fo) (hoOk : fo.hashOk = false)
    (hfs : fs file = some fi) (hok : fi.hashOk = false) :
    visitCounted d fs s file fi =
      { s with total_file_bytes := (s.total_file_bytes + fi.contents.length) % 2 ^ 64,
               num_files := (s.num_files + 1) % 2 ^ 32,
               hashTrace := s.hashTrace ++ [orig, file] } := by
  cases s
  simp only [visitCounted] at *
  rw [hl]
  simp [hash_contents_path_err ho hoOk, hash_contents_path_err hfs hok]

theorem visit_mdfail {hasHL : FileInfo → Bool} {dvi : FileInfo → DevIno}
    {d : List Nat → List Nat} {fs : String → Option FileInfo}
    {s : AllInFileVisitor} {file : String} (hfs : fs file = none) :
    visit hasHL dvi d fs s file = s := by
  simp only [visit]
  rw [hfs]

theorem visit_nohl {hasHL : FileInfo → Bool} {dvi : FileInfo → DevIno}
    {d : List Nat → List Nat} {fs : String → Option FileInfo}
    {s : AllInFileVisitor} {file : String} {fi : FileInfo}
    (hfs : fs file = some fi) (hl : hasHL fi = false) :
    visit hasHL dvi d fs s file = visitCounted d fs s file fi := by
  simp only [visit]
  rw [hfs]
  simp [hl]

theorem visit_hl_suppressed {hasHL : FileInfo → Bool} {dvi : FileInfo → DevIno}
    {d : List Nat → List Nat} {fs : String → Option FileInfo}
    {s : AllInFileVisitor} {file : String} {fi : FileInfo} {v : LinkedFile}
    (hfs : fs file = some fi) (hl : hasHL fi = true)
    (hm : lookupA s.hardlinks_map (dvi fi) = some v) :
    visit hasHL dvi d fs s file = s := by
  simp only [visit]
  rw [hfs]
  simp only [hl, if_true]
  rw [hm]

theorem visit_hl_insert {hasHL : FileInfo → Bool} {dvi : FileInfo → DevIno}
    {d : List Nat → List Nat} {fs : String → Option FileInfo}
    {s : AllInFileVisitor} {file : String} {fi : FileInfo}
    (hfs : fs file = some fi) (hl : hasHL fi = true)
    (hm : lookupA s.hardlinks_map (dvi fi) = none) :
    visit hasHL dvi d fs s file =
      visitCounted d fs
        { s with hardlinks_map := insertA s.hardlinks_map (dvi fi) (LinkedFile.init fi.contents.length file) }
        file fi := by
  simp only [visit]
  rw [hfs]
  simp only [hl, if_true]
  rw [hm]

/-- Number of admitted occurrences of path `p`. -/
def countOcc (p : String) (A : List (String × FileInfo)) : Nat :=
  (A.map Prod.fst).count p

/-- The engine-state invariant tying the four mutable components that
`visitCounted` touches to the admitted file list `A`. -/
structure CoreInv (d : List Nat → List Nat) (fs : String → Option FileInfo)
    (S : AllInFileVisitor) (A : List (String × FileInfo)) : Prop where
  slot_char : ∀ L, lookupA S.size_firstfile_map L = slotRef A L
  group_char : ∀ h, lookupA S.hash_files_map h = optList (groupRef d A h)
  sorted_groups : List.Pairwise (fun a b => lhCmp a.1 b.1 = .lt) S.hash_files_map
  bytes_char : S.total_file_bytes = ((A.map fun e => e.2.contents.length).sum) % 2 ^ 64
  count_char : S.num_files = A.length % 2 ^ 32
  trace_char : (∀ p fi, fs p = some fi → fi.hashOk = true) →
    ∀ p, S.hashTrace.count p + slotDeduct fs A p = countOcc p A

/-- The full run invariant: the core invariant plus the hardlink map. -/
structure RunInv (d : List Nat → List Nat) (fs : String → Option FileInfo)
    (S : AllInFileVisitor) (A : List (String × FileInfo)) (seen : List DevIno) : Prop where
  core : CoreInv d fs S A
  hl_char : ∀ dv, (lookupA S.hardlinks_map dv).isSome = decide (dv ∈ seen)

theorem classList_append_eq {A : List (String × FileInfo)} {e : String × FileInfo}
    {L : Nat} (h : e.2.contents.length = L) :
    classList (A ++ [e]) L = classList A L ++ [e] := by
  simp [classList, List.filter_append, h]

theorem classList_append_ne {A : List (String × FileInfo)} {e : String × FileInfo}
    {L : Nat} (h : e.2.contents.length ≠ L) :
    classList (A ++ [e]) L = classList A L := by
  simp [classList, List.filter_append, h]

theorem groupRef_append_ne_len {d : List Nat → List Nat}
    {A : List (String × FileInfo)} {e : String × FileInfo} {h : LenHash}
    (hne : e.2.contents.length ≠ h.len) :
    groupRef d (A ++ [e]) h = groupRef d A h := by
  simp [groupRef, classList_append_ne hne]

theorem classList_head_facts {A : List (String × FileInfo)}
    {e0 : String × FileInfo} {rest : List (String × FileInfo)} {L : Nat}
    (hcl : classList A L = e0 :: rest) :
    e0 ∈ A ∧ e0.2.contents.length = L := by
  have hm : e0 ∈ classList A L := by rw [hcl]; simp
  refine ⟨List.mem_of_mem_filter hm, ?_⟩
  have := List.of_mem_filter hm
  exact of_decide_eq_true this

theorem optList_push (g : List String) (f : String) :
    some ((optList g).getD [] ++ [f]) = optList (g ++ [f]) := by
  cases g <;> simp [optList]

theorem countOcc_append (p : String) (A : List (String × FileInfo))
    (e : String × FileInfo) :
    countOcc p (A ++ [e]) = countOcc p A + (if e.1 = p then 1 else 0) := by
  by_cases h : e.1 = p <;>
    simp [countOcc, List.count_append, List.count_singleton, h, List.count_cons]

theorem countOcc_zero_of_fs_none {fs : String → Option FileInfo}
    {A : List (String × FileInfo)} {p : String}
    (hAfs : ∀ e ∈ A, fs e.1 = some e.2) (hp : fs p = none) :
    countOcc p A = 0 := by
  rw [countOcc, List.count_eq_zero]
  intro hmem
  rcases List.mem_map.mp hmem with ⟨e, he, hfst⟩
  rw [← hfst] at hp
  rw [hAfs e he] at hp
  cases hp

theorem step_noentry {d : List Nat → List Nat} {fs : String → Option FileInfo}
    {s : AllInFileVisitor} {A : List (String × FileInfo)} {f : String} {fi : FileInfo}
    (inv : CoreInv d fs s A) (hfs : fs f = some fi)
    (hcl : classList A fi.contents.length = []) :
    CoreInv d fs (visitCounted d fs s f fi) (A ++ [(f, fi)]) := by
  have hslot : slotRef A fi.contents.length = none := by
    simp only [slotRef, hcl]
  have hl : lookupA s.size_firstfile_map fi.contents.length = none := by
    rw [inv.slot_char, hslot]
  rw [visitCounted_noentry hl]
  refine ⟨?_, ?_, ?_, ?_, ?_, ?_⟩
  · intro L2
    show lookupA (insertA s.size_firstfile_map fi.contents.length (some f)) L2 = _
    rw [lookupA_insertA]
    by_cases hL2 : fi.contents.length = L2
    · subst hL2
      rw [if_pos rfl]
      have hc : classList (A ++ [(f, fi)]) fi.contents.length = [(f, fi)] := by
        rw [classList_append_eq rfl, hcl]; rfl
      simp [slotRef, hc]
    · rw [if_neg hL2]
      have hc : classList (A ++ [(f, fi)]) L2 = classList A L2 :=
        classList_append_ne hL2
      rw [inv.slot_char]
      simp only [slotRef, hc]
  · intro h
    show lookupA s.hash_files_map h = _
    by_cases hlen : fi.contents.length = h.len
    · have hc : classList (A ++ [(f, fi)]) h.len = [(f, fi)] := by
        rw [← hlen, classList_append_eq rfl, hcl]; rfl
      have hg : groupRef d (A ++ [(f, fi)]) h = [] := by
        simp [groupRef, hc]
      have hg0 : groupRef d A h = [] := by
        have : classList A h.len = [] := by rw [← hlen, hcl]
        simp [groupRef, this]
      rw [hg, inv.group_char, hg0]
    · rw [groupRef_append_ne_len hlen, inv.group_char]
  · exact inv.sorted_groups
  · show (s.total_file_bytes + fi.contents.length) % 2 ^ 64 = _
    rw [inv.bytes_char]
    simp [List.sum_append, Nat.mod_add_mod]
  · show (s.num_files + 1) % 2 ^ 32 = _
    rw [inv.count_char]
    simp [Nat.mod_add_mod]
  · intro hne p
    have old := inv.trace_char hne p
    show s.hashTrace.count p + slotDeduct fs (A ++ [(f, fi)]) p = _
    rw [countOcc_append]
    cases hp : fs p with
    | none =>
      have hpf : ¬ (f = p) := fun he => by rw [he, hp] at hfs; cases hfs
      simp only [slotDeduct, hp] at old ⊢
      rw [if_neg hpf]
      omega
    | some fp =>
      simp only [slotDeduct, hp] at old ⊢
      by_cases hL2 : fp.contents.length = fi.contents.length
      · have h0 : slotRef A fp.contents.length = none := by
          rw [hL2]; exact hslot
        have h1 : slotRef (A ++ [(f, fi)]) fp.contents.length = some (some f) := by
          rw [hL2]
          have hc : classList (A ++ [(f, fi)]) fi.contents.length = [(f, fi)] := by
            rw [classList_append_eq rfl, hcl]; rfl
          simp [slotRef, hc]
        rw [h0] at old
        rw [h1]
        by_cases hpf : f = p
        · subst hpf
          simp only [if_pos rfl, reduceCtorEq, if_false] at old ⊢
          simp at old
          omega
        · have : ¬ (some (some f) = some (some p)) := by
            simp
            exact hpf
          rw [if_neg this, if_neg hpf]
          simp only [reduceCtorEq, if_false] at old
          omega
      · have hfne : (f, fi).2.contents.length ≠ fp.contents.length := fun he =>
          hL2 he.symm
        have h2 : slotRef (A ++ [(f, fi)]) fp.contents.length
            = slotRef A fp.contents.length := by
          simp only [slotRef, classList_append_ne hfne]
        have hpf : ¬ (f = p) := by
          intro he
          rw [he, hp] at hfs
          cases hfs
          exact hL2 rfl
        rw [h2, if_neg hpf]
        omega

theorem count_snoc (t : List String) (x p : String) :
    (t ++ [x]).count p = t.count p + (if x = p then 1 else 0) := by
  by_cases h : x = p <;> simp [List.count_append, List.count_cons, h]

theorem groupRef_small {d : List Nat → List Nat} {A : List (String × FileInfo)}
    {h : LenHash} (hcl : (classList A h.len).length < 2) : groupRef d A h = [] := by
  rw [groupRef, if_neg (by omega)]

theorem groupRef_append_mem {d : List Nat → List Nat} {A : List (String × FileInfo)}
    {e : String × FileInfo} {h : LenHash}
    (hlen : e.2.contents.length = h.len) (hbig : 2 ≤ (classList A h.len).length) :
    groupRef d (A ++ [e]) h = groupRef d A h ++
      (if e.2.hashOk && decide (lenHashOf d e.2 = h) then [e.1] else []) := by
  have hlen2 : 2 ≤ (classList (A ++ [e]) h.len).length := by
    rw [classList_append_eq hlen, List.length_append]
    omega
  rw [groupRef, groupRef, if_pos hbig, if_pos hlen2, classList_append_eq hlen,
    List.filter_append, List.map_append]
  congr 1
  cases hb : e.2.hashOk <;> by_cases hq : lenHashOf d e.2 = h <;>
    simp [List.filter, hb, hq]

theorem groupRef_two {d : List Nat → List Nat} {A : List (String × FileInfo)}
    {e0 e : String × FileInfo} {h : LenHash}
    (hcl : classList A h.len = [e0]) (helen : e.2.contents.length = h.len) :
    groupRef d (A ++ [e]) h =
      (if e0.2.hashOk && decide (lenHashOf d e0.2 = h) then [e0.1] else []) ++
      (if e.2.hashOk && decide (lenHashOf d e.2 = h) then [e.1] else []) := by
  have hc2 : classList (A ++ [e]) h.len = [e0, e] := by
    rw [classList_append_eq helen, hcl]
    rfl
  rw [groupRef, if_pos (by rw [hc2]; simp), hc2]
  cases h0 : e0.2.hashOk <;> cases h1 : e.2.hashOk <;>
    by_cases q0 : lenHashOf d e0.2 = h <;> by_cases q1 : lenHashOf d e.2 = h <;>
      simp [List.filter, h0, h1, q0, q1]

theorem step_flushed_ok {d : List Nat → List Nat} {fs : String → Option FileInfo}
    {s : AllInFileVisitor} {A : List (String × FileInfo)} {f : String} {fi : FileInfo}
    {e0 e1 : String × FileInfo} {rest : List (String × FileInfo)}
    (inv : CoreInv d fs s A) (hfs : fs f = some fi)
    (hcl : classList A fi.contents.length = e0 :: e1 :: rest)
    (he0ok : e0.2.hashOk = true) (hok : fi.hashOk = true) :
    CoreInv d fs (visitCounted d fs s f fi) (A ++ [(f, fi)]) := by
  have hslot : slotRef A fi.contents.length = some none := by
    simp [slotRef, hcl, he0ok]
  have hl : lookupA s.size_firstfile_map fi.contents.length = some none := by
    rw [inv.slot_char, hslot]
  have hcl2 : classList (A ++ [(f, fi)]) fi.contents.length
      = e0 :: e1 :: (rest ++ [(f, fi)]) := by
    rw [classList_append_eq rfl, hcl]; rfl
  have hbig : 2 ≤ (classList A fi.contents.length).length := by
    rw [hcl]; simp
  rw [visitCounted_flushed_ok hl hfs hok]
  refine ⟨?_, ?_, ?_, ?_, ?_, ?_⟩
  · intro L2
    show lookupA s.size_firstfile_map L2 = _
    by_cases hL2 : fi.contents.length = L2
    · subst hL2
      rw [hl]
      simp [slotRef, hcl2, he0ok]
    · have hcne : classList (A ++ [(f, fi)]) L2 = classList A L2 :=
        classList_append_ne hL2
      rw [inv.slot_char]
      simp only [slotRef, hcne]
  · intro h
    show lookupA (bucketPush (lenHashOf d fi) f s.hash_files_map) h = _
    by_cases hh : h = lenHashOf d fi
    · subst hh
      rw [lookupA_bucketPush_self inv.sorted_groups, inv.group_char, optList_push]
      have : groupRef d (A ++ [(f, fi)]) (lenHashOf d fi)
          = groupRef d A (lenHashOf d fi) ++ [f] := by
        rw [groupRef_append_mem rfl (by rw [show (lenHashOf d fi).len = fi.contents.length from rfl, hcl]; simp)]
        simp [hok]
      rw [this]
    · rw [lookupA_bucketPush_other _ _ _ hh, inv.group_char]
      by_cases hlen : fi.contents.length = h.len
      · have : groupRef d (A ++ [(f, fi)]) h = groupRef d A h := by
          rw [groupRef_append_mem hlen (by rw [← hlen, hcl]; simp)]
          have : ¬ (lenHashOf d fi = h) := fun he => hh he.symm
          simp [this]
        rw [this]
      · rw [groupRef_append_ne_len hlen]
  · exact pairwise_bucketPush inv.sorted_groups _ _
  · show (s.total_file_bytes + fi.contents.length) % 2 ^ 64 = _
    rw [inv.bytes_char]
    simp [List.sum_append, Nat.mod_add_mod]
  · show (s.num_files + 1) % 2 ^ 32 = _
    rw [inv.count_char]
    simp [Nat.mod_add_mod]
  · intro hne p
    have old := inv.trace_char hne p
    show (s.hashTrace ++ [f]).count p + slotDeduct fs (A ++ [(f, fi)]) p = _
    rw [countOcc_append, count_snoc]
    cases hp : fs p with
    | none =>
      have hpf : ¬ (f = p) := fun he => by rw [he, hp] at hfs; cases hfs
      simp only [slotDeduct, hp] at old ⊢
      rw [if_neg hpf]
      omega
    | some fp =>
      simp only [slotDeduct, hp] at old ⊢
      by_cases hL2 : fp.contents.length = fi.contents.length
      · have h0 : slotRef A fp.contents.length = some none := by
          rw [hL2]; exact hslot
        have h1 : slotRef (A ++ [(f, fi)]) fp.contents.length = some none := by
          rw [hL2]
          simp [slotRef, hcl2, he0ok]
        rw [h0] at old
        rw [h1]
        by_cases hpf : f = p <;> simp only [hpf, if_pos, if_neg, reduceCtorEq,
          Option.some.injEq, reduceIte] at old ⊢ <;> omega
      · have hfne : (f, fi).2.contents.length ≠ fp.contents.length := fun he =>
          hL2 he.symm
        have h2 : slotRef (A ++ [(f, fi)]) fp.contents.length
            = slotRef A fp.contents.length := by
          simp only [slotRef, classList_append_ne hfne]
        have hpf : ¬ (f = p) := by
          intro he
          rw [he, hp] at hfs
          cases hfs
          exact hL2 rfl
        rw [h2, if_neg hpf]
        omega

theorem step_flushed_err {d : List Nat → List Nat} {fs : String → Option FileInfo}
    {s : AllInFileVisitor} {A : List (String × FileInfo)} {f : String} {fi : FileInfo}
    {e0 e1 : String × FileInfo} {rest : List (String × FileInfo)}
    (inv : CoreInv d fs s A) (hfs : fs f = some fi)
    (hcl : classList A fi.contents.length = e0 :: e1 :: rest)
    (he0ok : e0.2.hashOk = true) (hok : fi.hashOk = false) :
    CoreInv d fs (visitCounted d fs s f fi) (A ++ [(f, fi)]) := by
  have hslot : slotRef A fi.contents.length = some none := by
    simp [slotRef, hcl, he0ok]
  have hl : lookupA s.size_firstfile_map fi.contents.length = some none := by
    rw [inv.slot_char, hslot]
  have hcl2 : classList (A ++ [(f, fi)]) fi.contents.length
      = e0 :: e1 :: (rest ++ [(f, fi)]) := by
    rw [classList_append_eq rfl, hcl]; rfl
  rw [visitCounted_flushed_err hl hfs hok]
  refine ⟨?_, ?_, ?_, ?_, ?_, ?_⟩
  · intro L2
    show lookupA s.size_firstfile_map L2 = _
    by_cases hL2 : fi.contents.length = L2
    · subst hL2
      rw [hl]
      simp [slotRef, hcl2, he0ok]
    · have hcne : classList (A ++ [(f, fi)]) L2 = classList A L2 :=
        classList_append_ne hL2
      rw [inv.slot_char]
      simp only [slotRef, hcne]
  · intro h
    show lookupA s.hash_files_map h = _
    rw [inv.group_char]
    by_cases hlen : fi.contents.length = h.len
    · have : groupRef d (A ++ [(f, fi)]) h = groupRef d A h := by
        rw [groupRef_append_mem hlen (by rw [← hlen, hcl]; simp)]
        simp [hok]
      rw [this]
    · rw [groupRef_append_ne_len hlen]
  · exact inv.sorted_groups
  · show (s.total_file_bytes + fi.contents.length) % 2 ^ 64 = _
    rw [inv.bytes_char]
    simp [List.sum_append, Nat.mod_add_mod]
  · show (s.num_files + 1) % 2 ^ 32 = _
    rw [inv.count_char]
    simp [Nat.mod_add_mod]
  · intro hne
    have := hne f fi hfs
    rw [hok] at this
    cases this

theorem count_pair (t : List String) (x y p : String) :
    (t ++ [x, y]).count p =
      t.count p + (if x = p then 1 else 0) + (if y = p then 1 else 0) := by
  by_cases h1 : x = p <;> by_cases h2 : y = p <;>
    simp [List.count_append, List.count_cons, h1, h2] <;> omega

theorem step_pending_ok_ok {d : List Nat → List Nat} {fs : String → Option FileInfo}
    {s : AllInFileVisitor} {A : List (String × FileInfo)} {f : String} {fi : FileInfo}
    {e0 : String × FileInfo}
    (inv : CoreInv d fs s A) (hfs : fs f = some fi)
    (hcl : classList A fi.contents.length = [e0])
    (he0fs : fs e0.1 = some e0.2)
    (he0ok : e0.2.hashOk = true) (hok : fi.hashOk = true) :
    CoreInv d fs (visitCounted d fs s f fi) (A ++ [(f, fi)]) := by
  have he0len : e0.2.contents.length = fi.contents.length :=
    (classList_head_facts hcl).2
  have hslot : slotRef A fi.contents.length = some (some e0.1) := by
    simp [slotRef, hcl]
  have hl : lookupA s.size_firstfile_map fi.contents.length = some (some e0.1) := by
    rw [inv.slot_char, hslot]
  have hcl2 : classList (A ++ [(f, fi)]) fi.contents.length = [e0, (f, fi)] := by
    rw [classList_append_eq rfl, hcl]; rfl
  have hsmall : ∀ h : LenHash, h.len = fi.contents.length → groupRef d A h = [] := by
    intro h hh
    refine groupRef_small ?_
    rw [hh, hcl]
    simp
  rw [visitCounted_pending_ok_ok hl he0fs he0ok hfs hok]
  refine ⟨?_, ?_, ?_, ?_, ?_, ?_⟩
  · intro L2
    show lookupA (insertA s.size_firstfile_map fi.contents.length none) L2 = _
    rw [lookupA_insertA]
    by_cases hL2 : fi.contents.length = L2
    · subst hL2
      rw [if_pos rfl]
      simp [slotRef, hcl2, he0ok]
    · rw [if_neg hL2, inv.slot_char]
      have hcne : classList (A ++ [(f, fi)]) L2 = classList A L2 :=
        classList_append_ne hL2
      simp only [slotRef, hcne]
  · intro h
    have hsort1 : List.Pairwise (fun a b => lhCmp a.1 b.1 = .lt)
        (bucketPush (lenHashOf d e0.2) e0.1 s.hash_files_map) :=
      pairwise_bucketPush inv.sorted_groups _ _
    show lookupA (bucketPush (lenHashOf d fi) f
        (bucketPush (lenHashOf d e0.2) e0.1 s.hash_files_map)) h = _
    by_cases hhf : h = lenHashOf d fi
    · subst hhf
      rw [lookupA_bucketPush_self hsort1]
      by_cases hfo : lenHashOf d fi = lenHashOf d e0.2
      · have hlk : lookupA (bucketPush (lenHashOf d e0.2) e0.1 s.hash_files_map)
            (lenHashOf d fi)
            = some ((lookupA s.hash_files_map (lenHashOf d e0.2)).getD [] ++ [e0.1]) := by
          rw [hfo]
          exact lookupA_bucketPush_self inv.sorted_groups _ _
        rw [hlk, inv.group_char, hsmall _ he0len, groupRef_two hcl rfl]
        simp [he0ok, hok, hfo.symm, optList]
      · rw [lookupA_bucketPush_other _ _ _ (fun he => hfo he), inv.group_char,
          hsmall _ rfl]
        rw [groupRef_two hcl rfl]
        have : ¬ (lenHashOf d e0.2 = lenHashOf d fi) := fun he => hfo he.symm
        simp [he0ok, hok, this, optList]
    · rw [lookupA_bucketPush_other _ _ _ hhf]
      by_cases hho : h = lenHashOf d e0.2
      · subst hho
        rw [lookupA_bucketPush_self inv.sorted_groups, inv.group_char,
          hsmall _ he0len]
        rw [groupRef_two (by rw [show (lenHashOf d e0.2).len = e0.2.contents.length from rfl, he0len]; exact hcl) (by rw [show (lenHashOf d e0.2).len = e0.2.contents.length from rfl, he0len])]
        have : ¬ (lenHashOf d fi = lenHashOf d e0.2) := fun he => hhf he.symm
        simp [he0ok, hok, this, optList]
      · rw [lookupA_bucketPush_other _ _ _ hho, inv.group_char]
        by_cases hlen : fi.contents.length = h.len
        · rw [hsmall _ hlen.symm]
          rw [groupRef_two (by rw [← hlen]; exact hcl) hlen]
          have h1 : ¬ (lenHashOf d e0.2 = h) := fun he => hho he.symm
          have h2 : ¬ (lenHashOf d fi = h) := fun he => hhf he.symm
          simp [h1, h2]
        · rw [groupRef_append_ne_len hlen]
  · exact pairwise_bucketPush (pairwise_bucketPush inv.sorted_groups _ _) _ _
  · show (s.total_file_bytes + fi.contents.length) % 2 ^ 64 = _
    rw [inv.bytes_char]
    simp [List.sum_append, Nat.mod_add_mod]
  · show (s.num_files + 1) % 2 ^ 32 = _
    rw [inv.count_char]
    simp [Nat.mod_add_mod]
  · intro hne p
    have old := inv.trace_char hne p
    show (s.hashTrace ++ [e0.1, f]).count p + slotDeduct fs (A ++ [(f, fi)]) p = _
    rw [countOcc_append, count_pair]
    cases hp : fs p with
    | none =>
      have hpf : ¬ (f = p) := fun he => by rw [he, hp] at hfs; cases hfs
      have hpe : ¬ (e0.1 = p) := fun he => by rw [he, hp] at he0fs; cases he0fs
      simp only [slotDeduct, hp] at old ⊢
      rw [if_neg hpf, if_neg hpe]
      omega
    | some fp =>
      simp only [slotDeduct, hp] at old ⊢
      by_cases hL2 : fp.contents.length = fi.contents.length
      · have h0 : slotRef A fp.contents.length = some (some e0.1) := by
          rw [hL2]; exact hslot
        have h1 : slotRef (A ++ [(f, fi)]) fp.contents.length = some none := by
          rw [hL2]
          simp [slotRef, hcl2, he0ok]
        rw [h0] at old
        rw [h1]
        by_cases hpe : e0.1 = p <;> by_cases hpf : f = p <;>
          simp [hpe, hpf] at old ⊢ <;> omega
      · have hfne : (f, fi).2.contents.length ≠ fp.contents.length := fun he =>
          hL2 he.symm
        have h2 : slotRef (A ++ [(f, fi)]) fp.contents.length
            = slotRef A fp.contents.length := by
          simp only [slotRef, classList_append_ne hfne]
        have hpf : ¬ (f = p) := by
          intro he
          rw [he, hp] at hfs
          cases hfs
          exact hL2 rfl
        have hpe : ¬ (e0.1 = p) := by
          intro he
          rw [he, hp] at he0fs
          cases he0fs
          exact hL2 (by rw [← he0len])
        rw [h2, if_neg hpf, if_neg hpe]
        omega

theorem step_pending_ok_err {d : List Nat → List Nat} {fs : String → Option FileInfo}
    {s : AllInFileVisitor} {A : List (String × FileInfo)} {f : String} {fi : FileInfo}
    {e0 : String × FileInfo}
    (inv : CoreInv d fs s A) (hfs : fs f = some fi)
    (hcl : classList A fi.contents.length = [e0])
    (he0fs : fs e0.1 = some e0.2)
    (he0ok : e0.2.hashOk = true) (hok : fi.hashOk = false) :
    CoreInv d fs (visitCounted d fs s f fi) (A ++ [(f, fi)]) := by
  have he0len : e0.2.contents.length = fi.contents.length :=
    (classList_head_facts hcl).2
  have hslot : slotRef A fi.contents.length = some (some e0.1) := by
    simp [slotRef, hcl]
  have hl : lookupA s.size_firstfile_map fi.contents.length = some (some e0.1) := by
    rw [inv.slot_char, hslot]
  have hcl2 : classList (A ++ [(f, fi)]) fi.contents.length = [e0, (f, fi)] := by
    rw [classList_append_eq rfl, hcl]; rfl
  have hsmall : ∀ h : LenHash, h.len = fi.contents.length → groupRef d A h = [] := by
    intro h hh
    refine groupRef_small ?_
    rw [hh, hcl]
    simp
  rw [visitCounted_pending_ok_err hl he0fs he0ok hfs hok]
  refine ⟨?_, ?_, ?_, ?_, ?_, ?_⟩
  · intro L2
    show lookupA (insertA s.size_firstfile_map fi.contents.length none) L2 = _
    rw [lookupA_insertA]
    by_cases hL2 : fi.contents.length = L2
    · subst hL2
      rw [if_pos rfl]
      simp [slotRef, hcl2, he0ok]
    · rw [if_neg hL2, inv.slot_char]
      have hcne : classList (A ++ [(f, fi)]) L2 = classList A L2 :=
        classList_append_ne hL2
      simp only [slotRef, hcne]
  · intro h
    show lookupA (bucketPush (lenHashOf d e0.2) e0.1 s.hash_files_map) h = _
    by_cases hho : h = lenHashOf d e0.2
    · subst hho
      rw [lookupA_bucketPush_self inv.sorted_groups, inv.group_char,
        hsmall _ he0len]
      rw [groupRef_two (by rw [show (lenHashOf d e0.2).len = e0.2.contents.length from rfl, he0len]; exact hcl) (by rw [show (lenHashOf d e0.2).len = e0.2.contents.length from rfl, he0len])]
      simp [he0ok, hok, optList]
    · rw [lookupA_bucketPush_other _ _ _ hho, inv.group_char]
      by_cases hlen : fi.contents.length = h.len
      · rw [hsmall _ hlen.symm]
        rw [groupRef_two (by rw [← hlen]; exact hcl) hlen]
        have h1 : ¬ (lenHashOf d e0.2 = h) := fun he => hho he.symm
        simp [h1, hok]
      · rw [groupRef_append_ne_len hlen]
  · exact pairwise_bucketPush inv.sorted_groups _ _
  · show (s.total_file_bytes + fi.contents.length) % 2 ^ 64 = _
    rw [inv.bytes_char]
    simp [List.sum_append, Nat.mod_add_mod]
  · show (s.num_files + 1) % 2 ^ 32 = _
    rw [inv.count_char]
    simp [Nat.mod_add_mod]
  · intro hne
    have := hne f fi hfs
    rw [hok] at this
    cases this

theorem step_pending_err_ok {d : List Nat → List Nat} {fs : String → Option FileInfo}
    {s : AllInFileVisitor} {A : List (String × FileInfo)} {f : String} {fi : FileInfo}
    {e0 : String × FileInfo} {rest : List (String × FileInfo)}
    (inv : CoreInv d fs s A) (hfs : fs f = some fi)
    (hcl : classList A fi.contents.length = e0 :: rest)
    (he0fs : fs e0.1 = some e0.2)
    (he0ok : e0.2.hashOk = false) (hok : fi.hashOk = true) :
    CoreInv d fs (visitCounted d fs s f fi) (A ++ [(f, fi)]) := by
  have he0len : e0.2.contents.length = fi.contents.length :=
    (classList_head_facts hcl).2
  have hslot : slotRef A fi.contents.length = some (some e0.1) := by
    simp [slotRef, hcl, he0ok]
  have hl : lookupA s.size_firstfile_map fi.contents.length = some (some e0.1) := by
    rw [inv.slot_char, hslot]
  have hcl2 : classList (A ++ [(f, fi)]) fi.contents.length
      = e0 :: (rest ++ [(f, fi)]) := by
    rw [classList_append_eq rfl, hcl]; rfl
  rw [visitCounted_pending_err_ok hl he0fs he0ok hfs hok]
  refine ⟨?_, ?_, ?_, ?_, ?_, ?_⟩
  · intro L2
    show lookupA s.size_firstfile_map L2 = _
    by_cases hL2 : fi.contents.length = L2
    · subst hL2
      rw [hl]
      simp [slotRef, hcl2, he0ok]
    · rw [inv.slot_char]
      have hcne : classList (A ++ [(f, fi)]) L2 = classList A L2 :=
        classList_append_ne hL2
      simp only [slotRef, hcne]
  · intro h
    show lookupA (bucketPush (lenHashOf d fi) f s.hash_files_map) h = _
    by_cases hhf : h = lenHashOf d fi
    · subst hhf
      rw [lookupA_bucketPush_self inv.sorted_groups, inv.group_char, optList_push]
      have hgrow : groupRef d (A ++ [(f, fi)]) (lenHashOf d fi)
          = groupRef d A (lenHashOf d fi) ++ [f] := by
        cases hrest : rest with
        | nil =>
          rw [hrest] at hcl
          rw [groupRef_two hcl rfl, groupRef_small (by rw [show (lenHashOf d fi).len = fi.contents.length from rfl, hcl]; simp)]
          simp [he0ok, hok]
        | cons e1 rest2 =>
          rw [groupRef_append_mem rfl (by rw [show (lenHashOf d fi).len = fi.contents.length from rfl, hcl, hrest]; simp)]
          simp [hok]
      rw [hgrow]
    · rw [lookupA_bucketPush_other _ _ _ hhf, inv.group_char]
      by_cases hlen : fi.contents.length = h.len
      · have hsame : groupRef d (A ++ [(f, fi)]) h = groupRef d A h := by
          cases hrest : rest with
          | nil =>
            rw [hrest] at hcl
            rw [groupRef_two (by rw [← hlen]; exact hcl) hlen,
              groupRef_small (by rw [← hlen, hcl]; simp)]
            have h2 : ¬ (lenHashOf d fi = h) := fun he => hhf he.symm
            simp [he0ok, h2]
          | cons e1 rest2 =>
            rw [groupRef_append_mem hlen (by rw [← hlen, hcl, hrest]; simp)]
            have h2 : ¬ (lenHashOf d fi = h) := fun he => hhf he.symm
            simp [h2]
        rw [hsame]
      · rw [groupRef_append_ne_len hlen]
  · exact pairwise_bucketPush inv.sorted_groups _ _
  · show (s.total_file_bytes + fi.contents.length) % 2 ^ 64 = _
    rw [inv.bytes_char]
    simp [List.sum_append, Nat.mod_add_mod]
  · show (s.num_files + 1) % 2 ^ 32 = _
    rw [inv.count_char]
    simp [Nat.mod_add_mod]
  · intro hne
    have := hne e0.1 e0.2 he0fs
    rw [he0ok] at this
    cases this

theorem step_pending_err_err {d : List Nat → List Nat} {fs : String → Option FileInfo}
    {s : AllInFileVisitor} {A : List (String × FileInfo)} {f : String} {fi : FileInfo}
    {e0 : String × FileInfo} {rest : List (String × FileInfo)}
    (inv : CoreInv d fs s A) (hfs : fs f = some fi)
    (hcl : classList A fi.contents.length = e0 :: rest)
    (he0fs : fs e0.1 = some e0.2)
    (he0ok : e0.2.hashOk = false) (hok : fi.hashOk = false) :
    CoreInv d fs (visitCounted d fs s f fi) (A ++ [(f, fi)]) := by
  have hslot : slotRef A fi.contents.length = some (some e0.1) := by
    simp [slotRef, hcl, he0ok]
  have hl : lookupA s.size_firstfile_map fi.contents.length = some (some e0.1) := by
    rw [inv.slot_char, hslot]
  have hcl2 : classList (A ++ [(f, fi)]) fi.contents.length
      = e0 :: (rest ++ [(f, fi)]) := by
    rw [classList_append_eq rfl, hcl]; rfl
  rw [visitCounted_pending_err_err hl he0fs he0ok hfs hok]
  refine ⟨?_, ?_, ?_, ?_, ?_, ?_⟩
  · intro L2
    show lookupA s.size_firstfile_map L2 = _
    by_cases hL2 : fi.contents.length = L2
    · subst hL2
      rw [hl]
      simp [slotRef, hcl2, he0ok]
    · rw [inv.slot_char]
      have hcne : classList (A ++ [(f, fi)]) L2 = classList A L2 :=
        classList_append_ne hL2
      simp only [slotRef, hcne]
  · intro h
    show lookupA s.hash_files_map h = _
    rw [inv.group_char]
    by_cases hlen : fi.contents.length = h.len
    · have hsame : groupRef d (A ++ [(f, fi)]) h = groupRef d A h := by
        cases hrest : rest with
        | nil =>
          rw [hrest] at hcl
          rw [groupRef_two (by rw [← hlen]; exact hcl) hlen,
            groupRef_small (by rw [← hlen, hcl]; simp)]
          simp [he0ok, hok]
        | cons e1 rest2 =>
          rw [groupRef_append_mem hlen (by rw [← hlen, hcl, hrest]; simp)]
          simp [hok]
      rw [hsame]
    · rw [groupRef_append_ne_len hlen]
  · exact inv.sorted_groups
  · show (s.total_file_bytes + fi.contents.length) % 2 ^ 64 = _
    rw [inv.bytes_char]
    simp [List.sum_append, Nat.mod_add_mod]
  · show (s.num_files + 1) % 2 ^ 32 = _
    rw [inv.count_char]
    simp [Nat.mod_add_mod]
  · intro hne
    have := hne f fi hfs
    rw [hok] at this
    cases this

theorem step_counted {d : List Nat → List Nat} {fs : String → Option FileInfo}
    {s : AllInFileVisitor} {A : List (String × FileInfo)} {f : String} {fi : FileInfo}
    (inv : CoreInv d fs s A) (hfs : fs f = some fi)
    (hAfs : ∀ e ∈ A, fs e.1 = some e.2) :
    CoreInv d fs (visitCounted d fs s f fi) (A ++ [(f, fi)]) := by
  cases hcl : classList A fi.contents.length with
  | nil => exact step_noentry inv hfs hcl
  | cons e0 rest =>
    have he0fs : fs e0.1 = some e0.2 := hAfs e0 (classList_head_facts hcl).1
    cases he0ok : e0.2.hashOk with
    | false =>
      cases hok : fi.hashOk with
      | true => exact step_pending_err_ok inv hfs hcl he0fs he0ok hok
      | false => exact step_pending_err_err inv hfs hcl he0fs he0ok hok
    | true =>
      cases rest with
      | nil =>
        cases hok : fi.hashOk with
        | true => exact step_pending_ok_ok inv hfs hcl he0fs he0ok hok
        | false => exact step_pending_ok_err inv hfs hcl he0fs he0ok hok
      | cons e1 rest2 =>
        cases hok : fi.hashOk with
        | true => exact step_flushed_ok inv hfs hcl he0ok hok
        | false => exact step_flushed_err inv hfs hcl he0ok hok

theorem visitCounted_hardlinks (d : List Nat → List Nat)
    (fs : String → Option FileInfo) (s : AllInFileVisitor) (file : String)
    (fi : FileInfo) :
    (visitCounted d fs s file fi).hardlinks_map = s.hardlinks_map := by
  cases s
  simp only [visitCounted]
  repeat' split
  all_goals rfl

theorem coreInv_set_hardlinks {d : List Nat → List Nat} {fs : String → Option FileInfo}
    {s : AllInFileVisitor} {A : List (String × FileInfo)}
    (inv : CoreInv d fs s A) (x : List (DevIno × LinkedFile)) :
    CoreInv d fs { s with hardlinks_map := x } A :=
  ⟨inv.slot_char, inv.group_char, inv.sorted_groups, inv.bytes_char,
    inv.count_char, inv.trace_char⟩

theorem runState_append (hasHL : FileInfo → Bool) (dvi : FileInfo → DevIno)
    (d : List Nat → List Nat) (fs : String → Option FileInfo)
    (xs : List String) (f : String) :
    runState hasHL dvi d fs (xs ++ [f])
      = visit hasHL dvi d fs (runState hasHL dvi d fs xs) f := by
  simp [runState, List.foldl_append]

theorem admitted_snoc (hasHL : FileInfo → Bool) (dvi : FileInfo → DevIno)
    (fs : String → Option FileInfo) (xs : List String) (f : String) :
    admitted hasHL dvi fs (xs ++ [f])
      = admitted hasHL dvi fs xs
          ++ admAux hasHL dvi fs [f] (seenOf hasHL dvi fs xs) := by
  rw [admitted, admAux_append]
  rfl

theorem seenOf_snoc (hasHL : FileInfo → Bool) (dvi : FileInfo → DevIno)
    (fs : String → Option FileInfo) (xs : List String) (f : String) :
    seenOf hasHL dvi fs (xs ++ [f])
      = seenAux hasHL dvi fs [f] (seenOf hasHL dvi fs xs) := by
  rw [seenOf, seenAux_append]
  rfl

/-- The full characterisation of one engine run: every observable component
of the final state is determined by the admitted file list. -/
theorem run_inv (hasHL : FileInfo → Bool) (dvi : FileInfo → DevIno)
    (d : List Nat → List Nat) (fs : String → Option FileInfo)
    (files : List String) :
    RunInv d fs (runState hasHL dvi d fs files)
      (admitted hasHL dvi fs files) (seenOf hasHL dvi fs files) := by
  induction files using List.reverseRecOn with
  | nil =>
    refine ⟨⟨?_, ?_, ?_, ?_, ?_, ?_⟩, ?_⟩
    · intro L
      simp [runState, AllInFileVisitor.new, admitted, admAux, lookupA,
        slotRef, classList]
    · intro h
      simp [runState, AllInFileVisitor.new, admitted, admAux, lookupA,
        groupRef, classList, optList]
    · simp [runState, AllInFileVisitor.new]
    · simp [runState, AllInFileVisitor.new, admitted, admAux]
    · simp [runState, AllInFileVisitor.new, admitted, admAux]
    · intro hne p
      simp only [runState, List.foldl_nil, AllInFileVisitor.new, admitted,
        admAux, slotDeduct, countOcc, slotRef, classList, List.filter_nil,
        List.map_nil, List.count_nil]
      cases fs p <;> simp
    · intro dv
      simp [runState, AllInFileVisitor.new, seenOf, seenAux, lookupA]
  | append_singleton xs f ih =>
    have hAfs : ∀ e ∈ admitted hasHL dvi fs xs, fs e.1 = some e.2 := by
      intro e he
      exact admAux_mem_fs hasHL dvi fs xs [] e.1 e.2 he
    rw [runState_append, admitted_snoc, seenOf_snoc]
    cases hfs : fs f with
    | none =>
      rw [visit_mdfail hfs]
      have hadm : admAux hasHL dvi fs [f] (seenOf hasHL dvi fs xs) = [] := by
        simp [admAux, hfs]
      have hseen : seenAux hasHL dvi fs [f] (seenOf hasHL dvi fs xs)
          = seenOf hasHL dvi fs xs := by
        simp [seenAux, hfs]
      rw [hadm, hseen, List.append_nil]
      exact ih
    | some fi =>
      cases hhl : hasHL fi with
      | false =>
        rw [visit_nohl hfs hhl]
        have hadm : admAux hasHL dvi fs [f] (seenOf hasHL dvi fs xs)
            = [(f, fi)] := by
          simp [admAux, hfs, hhl]
        have hseen : seenAux hasHL dvi fs [f] (seenOf hasHL dvi fs xs)
            = seenOf hasHL dvi fs xs := by
          simp [seenAux, hfs, hhl]
        rw [hadm, hseen]
        refine ⟨step_counted ih.core hfs hAfs, ?_⟩
        intro dv
        rw [visitCounted_hardlinks]
        exact ih.hl_char dv
      | true =>
        by_cases hm : dvi fi ∈ seenOf hasHL dvi fs xs
        · have hsome : (lookupA (runState hasHL dvi d fs xs).hardlinks_map
              (dvi fi)).isSome = true := by
            rw [ih.hl_char]
            simp [hm]
          obtain ⟨v, hv⟩ := Option.isSome_iff_exists.mp hsome
          rw [visit_hl_suppressed hfs hhl hv]
          have hadm : admAux hasHL dvi fs [f] (seenOf hasHL dvi fs xs) = [] := by
            simp [admAux, hfs, hhl, hm]
          have hseen : seenAux hasHL dvi fs [f] (seenOf hasHL dvi fs xs)
              = seenOf hasHL dvi fs xs := by
            simp [seenAux, hfs, hhl, hm]
          rw [hadm, hseen, List.append_nil]
          exact ih
        · have hnone : lookupA (runState hasHL dvi d fs xs).hardlinks_map
              (dvi fi) = none := by
            cases hcase : lookupA (runState hasHL dvi d fs xs).hardlinks_map (dvi fi) with
            | none => rfl
            | some v =>
              have hx := ih.hl_char (dvi fi)
              rw [hcase] at hx
              simp at hx
              exact absurd hx hm
          rw [visit_hl_insert hfs hhl hnone]
          have hadm : admAux hasHL dvi fs [f] (seenOf hasHL dvi fs xs)
              = [(f, fi)] := by
            simp [admAux, hfs, hhl, hm]
          have hseen : seenAux hasHL dvi fs [f] (seenOf hasHL dvi fs xs)
              = dvi fi :: seenOf hasHL dvi fs xs := by
            simp [seenAux, hfs, hhl, hm]
          rw [hadm, hseen]
          refine ⟨step_counted (coreInv_set_hardlinks ih.core _) hfs hAfs, ?_⟩
          intro dv
          rw [visitCounted_hardlinks]
          show (lookupA (insertA (runState hasHL dvi d fs xs).hardlinks_map
            (dvi fi) (LinkedFile.init fi.contents.length f)) dv).isSome = _
          rw [lookupA_insertA]
          by_cases hdv : dvi fi = dv
          · subst hdv
            simp
          · have hdv2 : ¬ (dv = dvi fi) := fun h => hdv h.symm
            rw [if_neg hdv]
            simp [List.mem_cons, hdv2, ih.hl_char dv]

theorem visitCounted_num_files (d : List Nat → List Nat)
    (fs : String → Option FileInfo) (s : AllInFileVisitor) (file : String)
    (fi : FileInfo) :
    (visitCounted d fs s file fi).num_files = (s.num_files + 1) % 2 ^ 32 := by
  cases s
  simp only [visitCounted]
  repeat' split
  all_goals rfl

theorem visitCounted_total_bytes (d : List Nat → List Nat)
    (fs : String → Option FileInfo) (s : AllInFileVisitor) (file : String)
    (fi : FileInfo) :
    (visitCounted d fs s file fi).total_file_bytes
      = (s.total_file_bytes + fi.contents.length) % 2 ^ 64 := by
  cases s
  simp only [visitCounted]
  repeat' split
  all_goals rfl

theorem two_mem_le_length {α : Type} {l : List α} {a b : α}
    (ha : a ∈ l) (hb : b ∈ l) (hne : a ≠ b) : 2 ≤ l.length := by
  induction l with
  | nil => cases ha
  | cons c t ih =>
    rcases List.mem_cons.mp ha with rfl | ha2
    · rcases List.mem_cons.mp hb with rfl | hb2
      · exact absurd rfl hne
      · have := List.length_pos_of_mem hb2
        simp only [List.length_cons]
        omega
    · have := List.length_pos_of_mem ha2
      simp only [List.length_cons]
      omega

theorem optList_some {l g : List String} (h : optList l = some g) : l = g := by
  rw [optList] at h
  by_cases he : l.isEmpty
  · rw [if_pos he] at h
    cases h
  · rw [if_neg he] at h
    exact Option.some.inj h

/-- Every admitted, hashable file whose size class has at least two members
ends up in the group of its own content identity. -/
theorem adm_mem_group (hasHL : FileInfo → Bool) (dvi : FileInfo → DevIno)
    (d : List Nat → List Nat) (fs : String → Option FileInfo)
    (files : List String) {q : String} {fq : FileInfo}
    (hq : (q, fq) ∈ admitted hasHL dvi fs files)
    (hok : fq.hashOk = true)
    (hbig : 2 ≤ (classList (admitted hasHL dvi fs files) fq.contents.length).length) :
    ∃ g, lookupA (runState hasHL dvi d fs files).hash_files_map (lenHashOf d fq)
        = some g ∧ q ∈ g := by
  have inv := (run_inv hasHL dvi d fs files).core
  have hmemcl : (q, fq) ∈ classList (admitted hasHL dvi fs files) fq.contents.length :=
    List.mem_filter.mpr ⟨hq, by simp⟩
  have hmemg : q ∈ groupRef d (admitted hasHL dvi fs files) (lenHashOf d fq) := by
    rw [groupRef, show (lenHashOf d fq).len = fq.contents.length from rfl,
      if_pos hbig]
    refine List.mem_map.mpr ⟨(q, fq), ?_, rfl⟩
    refine List.mem_filter.mpr ⟨hmemcl, ?_⟩
    simp [hok]
  refine ⟨groupRef d (admitted hasHL dvi fs files) (lenHashOf d fq), ?_, hmemg⟩
  rw [inv.group_char, optList]
  rw [if_neg ?_]
  intro he
  rw [List.isEmpty_iff] at he
  rw [he] at hmemg
  cases hmemg

theorem countOcc_le_class {fs : String → Option FileInfo} {p : String} {fp : FileInfo} :
    ∀ {A : List (String × FileInfo)},
      (∀ e ∈ A, fs e.1 = some e.2) → fs p = some fp →
      countOcc p A ≤ (classList A fp.contents.length).length := by
  intro A
  induction A with
  | nil => intro _ _; simp [countOcc, classList]
  | cons e rest ih =>
    intro hAfs hfsp
    have hrest : ∀ x ∈ rest, fs x.1 = some x.2 := fun x hx => hAfs x (by simp [hx])
    have hc : countOcc p (e :: rest)
        = (if e.1 = p then 1 else 0) + countOcc p rest := by
      by_cases hp : e.1 = p <;> simp [countOcc, List.count_cons, hp] <;> omega
    by_cases hp : e.1 = p
    · have he2 : e.2 = fp := by
        have hx := hAfs e (by simp)
        rw [hp, hfsp] at hx
        exact (Option.some.inj hx).symm
      have hcl : classList (e :: rest) fp.contents.length
          = e :: classList rest fp.contents.length := by
        simp [classList, List.filter_cons, he2]
      rw [hc, hcl, if_pos hp]
      simp only [List.length_cons]
      have := ih hrest hfsp
      omega
    · rw [hc, if_neg hp]
      have hle : (classList rest fp.contents.length).length
          ≤ (classList (e :: rest) fp.contents.length).length := by
        rw [classList, classList, List.filter_cons]
        split <;> simp <;> omega
      have := ih hrest hfsp
      omega

theorem countOcc_pos {p : String} {fp : FileInfo} {A : List (String × FileInfo)}
    (h : (p, fp) ∈ A) : 1 ≤ countOcc p A := by
  rw [countOcc]
  have : p ∈ A.map Prod.fst := List.mem_map.mpr ⟨(p, fp), h, rfl⟩
  exact List.count_pos_iff.mpr this

/-- A concrete digest function for witness runs (any function works: the
theorems hold for every digest). -/
def dId : List Nat → List Nat := fun l => l

/-- Witness filesystem: two byte-identical regular files, no hard links. -/
def fsAB : String → Option FileInfo := fun p =>
  if p = "a" then some (FileInfo.mk [7] 1 0 0 true)
  else if p = "b" then some (FileInfo.mk [7] 1 0 1 true)
  else none

/-- Witness filesystem: identical contents, but hashing `a` fails. -/
def fsABerr : String → Option FileInfo := fun p =>
  if p = "a" then some (FileInfo.mk [7] 1 0 0 false)
  else if p = "b" then some (FileInfo.mk [7] 1 0 1 true)
  else none

/-- Witness filesystem: `a` and `b` are two names of one inode. -/
def fsHL : String → Option FileInfo := fun p =>
  if p = "a" then some (FileInfo.mk [1, 2] 2 5 9 true)
  else if p = "b" then some (FileInfo.mk [1, 2] 2 5 9 true)
  else none

/-- Witness filesystem: three files of one length, hashing `a` fails. -/
def fsRetry : String → Option FileInfo := fun p =>
  if p = "a" then some (FileInfo.mk [1] 1 0 0 false)
  else if p = "b" then some (FileInfo.mk [1] 1 0 1 true)
  else if p = "c" then some (FileInfo.mk [1] 1 0 2 true)
  else none

/-- Witness filesystem: a duplicate pair plus a size-unique file. -/
def fsABC : String → Option FileInfo := fun p =>
  if p = "a" then some (FileInfo.mk [7] 1 0 0 true)
  else if p = "b" then some (FileInfo.mk [7] 1 0 1 true)
  else if p = "c" then some (FileInfo.mk [1, 2] 1 0 2 true)
  else none

theorem fsABC_noerr : ∀ q fq, fsABC q = some fq → fq.hashOk = true := by
  intro q fq h
  simp only [fsABC] at h
  split at h
  · cases h; rfl
  · split at h
    · cases h; rfl
    · split at h
      · cases h; rfl
      · cases h

theorem fsAB_noerr : ∀ q fq, fsAB q = some fq → fq.hashOk = true := by
  intro q fq h
  simp only [fsAB] at h
  split at h
  · cases h; rfl
  · split at h
    · cases h; rfl
    · cases h

/-- C7: a visit whose metadata fetch fails logs the error and returns with
no engine state mutated: size buckets, duplicate index, hardlink map and
both counters are exactly as before the call. -/
theorem c7_metadata_failure (hasHL : FileInfo → Bool) (dvi : FileInfo → DevIno)
    (d : List Nat → List Nat) (fs : String → Option FileInfo)
    (s : AllInFileVisitor) (f : String) (hf : fs f = none) :
    visit hasHL dvi d fs s f = s :=
  visit_mdfail hf

theorem c7_metadata_failure_witness :
    visit has_hardlinks DevIno.fromMeta dId fsAB AllInFileVisitor.new "zz"
      = AllInFileVisitor.new :=
  c7_metadata_failure has_hardlinks DevIno.fromMeta dId fsAB
    AllInFileVisitor.new "zz" (by decide)

/-- C9: on the Windows build `has_hardlinks` is constantly `false` and
`DevIno::from` is a constant, so the hardlink gate never suppresses any
file: every visited file with readable metadata is counted and bucketed,
and the hardlink map is never touched. -/
theorem c9_windows_no_suppression (d : List Nat → List Nat)
    (fs : String → Option FileInfo) (s : AllInFileVisitor) (f : String)
    (fi : FileInfo) (hf : fs f = some fi) :
    (visit has_hardlinks_windows DevIno.fromMetaWindows d fs s f).num_files
        = (s.num_files + 1) % 2 ^ 32
    ∧ (visit has_hardlinks_windows DevIno.fromMetaWindows d fs s f).total_file_bytes
        = (s.total_file_bytes + fi.contents.length) % 2 ^ 64
    ∧ (visit has_hardlinks_windows DevIno.fromMetaWindows d fs s f).hardlinks_map
        = s.hardlinks_map := by
  rw [visit_nohl hf rfl]
  exact ⟨visitCounted_num_files d fs s f fi, visitCounted_total_bytes d fs s f fi,
    visitCounted_hardlinks d fs s f fi⟩

theorem c9_windows_no_suppression_witness :
    (visit has_hardlinks_windows DevIno.fromMetaWindows dId fsHL
        AllInFileVisitor.new "a").num_files
      = (AllInFileVisitor.new.num_files + 1) % 2 ^ 32 :=
  (c9_windows_no_suppression dId fsHL AllInFileVisitor.new "a"
    (FileInfo.mk [1, 2] 2 5 9 true) (by decide)).1

/-- C8: the hasher takes the memory-mapped path exactly for
`16384 ≤ length ≤ isize::MAX` (streaming otherwise, including length 0),
and the streaming path agrees with the mmap path on every chunking of the
same byte sequence, so both produce the same ContentIdentity. -/
theorem c8_hasher_equivalence (d : List Nat → List Nat) (size : Nat)
    (contents : List Nat) (chunks : List (List Nat))
    (hj : chunks.flatten = contents) :
    hash_contents_file d size chunks = hash_contents_mmap d size contents
    ∧ (∀ sz : Nat, usesMmap sz = true ↔ (16384 ≤ sz ∧ sz ≤ 2 ^ 63 - 1))
    ∧ usesMmap 0 = false ∧ usesMmap 16383 = false ∧ usesMmap 16384 = true
    ∧ usesMmap (2 ^ 63 - 1) = true ∧ usesMmap (2 ^ 63) = false
    ∧ (∀ (fs : String → Option FileInfo) (p : String) (fi : FileInfo),
        fs p = some fi → fi.hashOk = true →
        hash_contents_path d fs p = some (lenHashOf d fi)) := by
  refine ⟨?_, ?_, by decide, by decide, by decide, by decide, by decide, ?_⟩
  · rw [hash_contents_file_join, hash_contents_mmap_eq, hj]
  · intro sz
    simp [usesMmap]
  · intro fs p fi hfs hok
    exact hash_contents_path_ok hfs hok

theorem c8_hasher_equivalence_witness :
    hash_contents_file dId 3 [[1], [2, 3]] = hash_contents_mmap dId 3 [1, 2, 3] :=
  (c8_hasher_equivalence dId 3 [1, 2, 3] [[1], [2, 3]] rfl).1

/-- C4: the reported duplicate groups are pairwise ordered by descending
content length, ties broken by descending digest bytes: re-sorting by this
rule leaves the list unchanged. -/
theorem c4_group_ordering (hasHL : FileInfo → Bool) (dvi : FileInfo → DevIno)
    (d : List Nat → List Nat) (fs : String → Option FileInfo)
    (files : List String) :
    List.Pairwise
      (fun g1 g2 => g2.1.len < g1.1.len
        ∨ (g2.1.len = g1.1.len ∧ lexLt g2.1.hash g1.1.hash))
      (dupGroups (runState hasHL dvi d fs files)) := by
  have hs := (run_inv hasHL dvi d fs files).core.sorted_groups
  have hp := hs.filter only_with_dupes
  exact hp.imp (fun h => lhCmp_lt_iff.mp h)

/-- C5: every group yielded by the duplicates accessor has at least two
paths; groups with 0 or 1 members are filtered out. -/
theorem c5_group_minimality (hasHL : FileInfo → Bool) (dvi : FileInfo → DevIno)
    (d : List Nat → List Nat) (fs : String → Option FileInfo)
    (files : List String) (g : LenHash × List String)
    (hg : g ∈ dupGroups (runState hasHL dvi d fs files)) : 2 ≤ g.2.length := by
  have hx := List.of_mem_filter hg
  rw [only_with_dupes] at hx
  have := of_decide_eq_true hx
  omega

theorem c5_group_minimality_witness :
    2 ≤ ([("a" : String), "b"] : List String).length :=
  c5_group_minimality has_hardlinks DevIno.fromMeta dId fsAB ["a", "b"]
    (LenHash.mk 1 [7], ["a", "b"]) (by decide)

/-- C1 (amended): in any run, two visited files with byte-identical
contents that were both admitted (not suppressed by the hardlink gate) and
whose hashing does not fail both appear in the duplicate group keyed by
their common ContentIdentity. The amendment adds the no-hash-failure
condition for the two files: a hash I/O failure silently drops a path
(see the counterexample). -/
theorem c1_completeness (d : List Nat → List Nat) (fs : String → Option FileInfo)
    (files : List String) (p q : String) (fp fq : FileInfo)
    (hp : (p, fp) ∈ admitted has_hardlinks DevIno.fromMeta fs files)
    (hq : (q, fq) ∈ admitted has_hardlinks DevIno.fromMeta fs files)
    (hpq : p ≠ q) (hc : fp.contents = fq.contents)
    (hokp : fp.hashOk = true) (hokq : fq.hashOk = true) :
    ∃ g, (lenHashOf d fp, g)
        ∈ dupGroups (runState has_hardlinks DevIno.fromMeta d fs files)
      ∧ p ∈ g ∧ q ∈ g := by
  have hlen : fq.contents.length = fp.contents.length := by rw [hc]
  have hkey : lenHashOf d fq = lenHashOf d fp := by
    rw [lenHashOf, lenHashOf, hc]
  have hpc : (p, fp) ∈ classList (admitted has_hardlinks DevIno.fromMeta fs files)
      fp.contents.length :=
    List.mem_filter.mpr ⟨hp, by simp⟩
  have hqc : (q, fq) ∈ classList (admitted has_hardlinks DevIno.fromMeta fs files)
      fp.contents.length :=
    List.mem_filter.mpr ⟨hq, by simp [hlen]⟩
  have hnepair : ((p, fp) : String × FileInfo) ≠ (q, fq) := by
    intro he
    exact hpq (congrArg Prod.fst he)
  have hbig : 2 ≤ (classList (admitted has_hardlinks DevIno.fromMeta fs files)
      fp.contents.length).length :=
    two_mem_le_length hpc hqc hnepair
  obtain ⟨g, hg, hpin⟩ :=
    adm_mem_group has_hardlinks DevIno.fromMeta d fs files hp hokp hbig
  obtain ⟨g2, hg2, hqin⟩ :=
    adm_mem_group has_hardlinks DevIno.fromMeta d fs files hq hokq
      (by rw [hlen]; exact hbig)
  rw [hkey, hg] at hg2
  have hgg : g2 = g := (Option.some.inj hg2).symm
  rw [hgg] at hqin
  refine ⟨g, ?_, hpin, hqin⟩
  rw [dupGroups]
  refine List.mem_filter.mpr ⟨lookupA_some_mem hg, ?_⟩
  rw [only_with_dupes]
  have hglen : 2 ≤ g.length := two_mem_le_length hpin hqin hpq
  have h1g : (1 : Nat) < ((lenHashOf d fp, g) : LenHash × List String).2.length := by
    show 1 < g.length
    omega
  exact decide_eq_true h1g

theorem c1_completeness_witness :
    ∃ g, (lenHashOf dId (FileInfo.mk [7] 1 0 0 true), g)
        ∈ dupGroups (runState has_hardlinks DevIno.fromMeta dId fsAB ["a", "b"])
      ∧ "a" ∈ g ∧ "b" ∈ g :=
  c1_completeness dId fsAB ["a", "b"] "a" "b"
    (FileInfo.mk [7] 1 0 0 true) (FileInfo.mk [7] 1 0 1 true)
    (by decide) (by decide) (by decide) rfl rfl rfl

/-- C1 counterexample: with byte-identical files `a` and `b`, both visited
and neither hard-link-suppressed, but hashing of `a` failing, the run ends
with `a` in no reported group at all, so the pair is not in a common group
as the unamended claim requires. -/
theorem c1_counterexample :
    ("a", FileInfo.mk [7] 1 0 0 false)
        ∈ admitted has_hardlinks DevIno.fromMeta fsABerr ["a", "b"]
    ∧ ("b", FileInfo.mk [7] 1 0 1 true)
        ∈ admitted has_hardlinks DevIno.fromMeta fsABerr ["a", "b"]
    ∧ (FileInfo.mk [7] 1 0 0 false).contents = (FileInfo.mk [7] 1 0 1 true).contents
    ∧ "a" ≠ "b"
    ∧ ∀ g ∈ dupGroups (runState has_hardlinks DevIno.fromMeta dId fsABerr
        ["a", "b"]), "a" ∉ g.2 := by
  decide

/-- C2: a file with link count > 1 whose dev+inode was already recorded is
skipped entirely (the whole visit is a no-op: no counters, no bucketing, no
hashing, no group membership); the first occurrence of a dev+inode is
admitted and counted, and files with link count ≤ 1 are always admitted
and counted. -/
theorem c2_hardlink_suppression (d : List Nat → List Nat)
    (fs : String → Option FileInfo) (files : List String) (f : String)
    (fi : FileInfo) (hfs : fs f = some fi) :
    (1 < fi.nlink →
      DevIno.fromMeta fi ∈ seenOf has_hardlinks DevIno.fromMeta fs files →
      visit has_hardlinks DevIno.fromMeta d fs
          (runState has_hardlinks DevIno.fromMeta d fs files) f
        = runState has_hardlinks DevIno.fromMeta d fs files)
    ∧ (1 < fi.nlink →
      DevIno.fromMeta fi ∉ seenOf has_hardlinks DevIno.fromMeta fs files →
      (visit has_hardlinks DevIno.fromMeta d fs
          (runState has_hardlinks DevIno.fromMeta d fs files) f).num_files
        = ((runState has_hardlinks DevIno.fromMeta d fs files).num_files + 1) % 2 ^ 32
      ∧ (lookupA (visit has_hardlinks DevIno.fromMeta d fs
          (runState has_hardlinks DevIno.fromMeta d fs files) f).hardlinks_map
          (DevIno.fromMeta fi)).isSome = true)
    ∧ (fi.nlink ≤ 1 →
      (visit has_hardlinks DevIno.fromMeta d fs
          (runState has_hardlinks DevIno.fromMeta d fs files) f).num_files
        = ((runState has_hardlinks DevIno.fromMeta d fs files).num_files + 1) % 2 ^ 32) := by
  refine ⟨?_, ?_, ?_⟩
  · intro hnl hm
    have hhl : has_hardlinks fi = true := decide_eq_true hnl
    have hsome : (lookupA (runState has_hardlinks DevIno.fromMeta d fs
        files).hardlinks_map (DevIno.fromMeta fi)).isSome = true := by
      rw [(run_inv has_hardlinks DevIno.fromMeta d fs files).hl_char]
      simp [hm]
    obtain ⟨v, hv⟩ := Option.isSome_iff_exists.mp hsome
    exact visit_hl_suppressed hfs hhl hv
  · intro hnl hm
    have hhl : has_hardlinks fi = true := decide_eq_true hnl
    have hnone : lookupA (runState has_hardlinks DevIno.fromMeta d fs
        files).hardlinks_map (DevIno.fromMeta fi) = none := by
      cases hcase : lookupA (runState has_hardlinks DevIno.fromMeta d fs
          files).hardlinks_map (DevIno.fromMeta fi) with
      | none => rfl
      | some v =>
        have hx := (run_inv has_hardlinks DevIno.fromMeta d fs files).hl_char
          (DevIno.fromMeta fi)
        rw [hcase] at hx
        simp at hx
        exact absurd hx hm
    rw [visit_hl_insert hfs hhl hnone]
    constructor
    · rw [visitCounted_num_files]
    · rw [visitCounted_hardlinks]
      show (lookupA (insertA (runState has_hardlinks DevIno.fromMeta d fs
        files).hardlinks_map (DevIno.fromMeta fi)
        (LinkedFile.init fi.contents.length f)) (DevIno.fromMeta fi)).isSome = true
      rw [lookupA_insertA, if_pos rfl]
      rfl
  · intro hnl
    have hhl : has_hardlinks fi = false := by
      rw [has_hardlinks]
      exact decide_eq_false (by omega)
    rw [visit_nohl hfs hhl, visitCounted_num_files]

theorem c2_hardlink_suppression_witness :
    visit has_hardlinks DevIno.fromMeta dId fsHL
        (runState has_hardlinks DevIno.fromMeta dId fsHL ["a"]) "b"
      = runState has_hardlinks DevIno.fromMeta dId fsHL ["a"] :=
  (c2_hardlink_suppression dId fsHL ["a"] "b" (FileInfo.mk [1, 2] 2 5 9 true)
    (by decide)).1 (by decide) (by decide)

/-- C3: in a run without hash I/O errors, an admitted file whose length is
shared by no other admitted file is never passed to the hasher, and in a
size class with at least two admitted files each file is hashed exactly
once (the first one deferred until the second arrives). -/
theorem c3_lazy_hashing (d : List Nat → List Nat) (fs : String → Option FileInfo)
    (files : List String) (p : String) (fp : FileInfo)
    (hnoerr : ∀ q fq, fs q = some fq → fq.hashOk = true)
    (hmem : (p, fp) ∈ admitted has_hardlinks DevIno.fromMeta fs files) :
    ((classList (admitted has_hardlinks DevIno.fromMeta fs files)
        fp.contents.length).length = 1 →
      (runState has_hardlinks DevIno.fromMeta d fs files).hashTrace.count p = 0)
    ∧ (2 ≤ (classList (admitted has_hardlinks DevIno.fromMeta fs files)
        fp.contents.length).length → files.Nodup →
      (runState has_hardlinks DevIno.fromMeta d fs files).hashTrace.count p = 1) := by
  have inv := (run_inv has_hardlinks DevIno.fromMeta d fs files).core
  have hAfs : ∀ e ∈ admitted has_hardlinks DevIno.fromMeta fs files,
      fs e.1 = some e.2 := by
    intro e he
    exact admAux_mem_fs has_hardlinks DevIno.fromMeta fs files [] e.1 e.2 he
  have hfsp : fs p = some fp :=
    admAux_mem_fs has_hardlinks DevIno.fromMeta fs files [] p fp hmem
  have tr := inv.trace_char hnoerr p
  constructor
  · intro h1
    obtain ⟨e, he⟩ := List.length_eq_one.mp h1
    have hpc : (p, fp) ∈ classList (admitted has_hardlinks DevIno.fromMeta fs files)
        fp.contents.length :=
      List.mem_filter.mpr ⟨hmem, by simp⟩
    rw [he] at hpc
    have hep : e = (p, fp) := (List.mem_singleton.mp hpc).symm
    rw [hep] at he
    have hslot : slotRef (admitted has_hardlinks DevIno.fromMeta fs files)
        fp.contents.length = some (some p) := by
      simp [slotRef, he]
    have hded : slotDeduct fs (admitted has_hardlinks DevIno.fromMeta fs files) p = 1 := by
      simp [slotDeduct, hfsp, hslot]
    have hle : countOcc p (admitted has_hardlinks DevIno.fromMeta fs files)
        ≤ 1 := by
      have := countOcc_le_class hAfs hfsp
      omega
    have hge := countOcc_pos hmem
    rw [hded] at tr
    omega
  · intro h2 hnd
    cases hce : classList (admitted has_hardlinks DevIno.fromMeta fs files)
        fp.contents.length with
    | nil =>
      rw [hce] at h2
      simp at h2
    | cons e0 rest =>
      have he0fs : fs e0.1 = some e0.2 := hAfs e0 (classList_head_facts hce).1
      have he0ok := hnoerr _ _ he0fs
      cases rest with
      | nil =>
        rw [hce] at h2
        simp at h2
      | cons e1 r2 =>
        have hslot : slotRef (admitted has_hardlinks DevIno.fromMeta fs files)
            fp.contents.length = some none := by
          simp [slotRef, hce, he0ok]
        have hded : slotDeduct fs (admitted has_hardlinks DevIno.fromMeta fs files)
            p = 0 := by
          simp [slotDeduct, hfsp, hslot]
        have hnodup : ((admitted has_hardlinks DevIno.fromMeta fs files).map
            Prod.fst).Nodup :=
          List.Nodup.sublist
            (admAux_fst_sublist has_hardlinks DevIno.fromMeta fs files []) hnd
        have hpm : p ∈ (admitted has_hardlinks DevIno.fromMeta fs files).map
            Prod.fst :=
          List.mem_map.mpr ⟨(p, fp), hmem, rfl⟩
        have hco : countOcc p (admitted has_hardlinks DevIno.fromMeta fs files) = 1 :=
          List.count_eq_one_of_mem hnodup hpm
        rw [hded] at tr
        omega

theorem c3_lazy_hashing_witness :
    (runState has_hardlinks DevIno.fromMeta dId fsABC
      ["a", "b", "c"]).hashTrace.count "c" = 0 :=
  (c3_lazy_hashing dId fsABC ["a", "b", "c"] "c" (FileInfo.mk [1, 2] 1 0 2 true)
    fsABC_noerr (by decide)).1 (by decide)

/-- C6 (amended): a hash I/O failure is logged and the run continues; the
failing path never enters the duplicate index, and every other admitted
hashable file in a size class of at least two admitted files still reaches
its group. A failing path that is the deferred first file of its size class
is not discarded, however: it stays in the pending slot and the hasher is
invoked on it again at each later same-size arrival (see the
counterexample to the unamended "dropped / not retried" wording). -/
theorem c6_hash_failure (d : List Nat → List Nat) (fs : String → Option FileInfo)
    (files : List String) (p : String) (fp : FileInfo)
    (hmem : (p, fp) ∈ admitted has_hardlinks DevIno.fromMeta fs files)
    (hfail : fp.hashOk = false) :
    (∀ h g, lookupA (runState has_hardlinks DevIno.fromMeta d fs
        files).hash_files_map h = some g → p ∉ g)
    ∧ (∀ q fq, (q, fq) ∈ admitted has_hardlinks DevIno.fromMeta fs files →
        fq.hashOk = true →
        2 ≤ (classList (admitted has_hardlinks DevIno.fromMeta fs files)
          fq.contents.length).length →
        ∃ g, lookupA (runState has_hardlinks DevIno.fromMeta d fs
            files).hash_files_map (lenHashOf d fq) = some g ∧ q ∈ g) := by
  have inv := (run_inv has_hardlinks DevIno.fromMeta d fs files).core
  have hAfs : ∀ e ∈ admitted has_hardlinks DevIno.fromMeta fs files,
      fs e.1 = some e.2 := by
    intro e he
    exact admAux_mem_fs has_hardlinks DevIno.fromMeta fs files [] e.1 e.2 he
  have hfsp : fs p = some fp :=
    admAux_mem_fs has_hardlinks DevIno.fromMeta fs files [] p fp hmem
  constructor
  · intro h g hg hpin
    rw [inv.group_char] at hg
    have hge := optList_some hg
    rw [← hge] at hpin
    rw [groupRef] at hpin
    by_cases hc : 2 ≤ (classList (admitted has_hardlinks DevIno.fromMeta fs files)
        h.len).length
    · rw [if_pos hc] at hpin
      obtain ⟨e, hef, hfst⟩ := List.mem_map.mp hpin
      obtain ⟨hecl, hpred⟩ := List.mem_filter.mp hef
      have heA : e ∈ admitted has_hardlinks DevIno.fromMeta fs files :=
        List.mem_of_mem_filter hecl
      have hefs := hAfs e heA
      rw [hfst, hfsp] at hefs
      have he2 : e.2 = fp := (Option.some.inj hefs).symm
      have heok : e.2.hashOk = true := by
        have hx := hpred
        simp only [Bool.and_eq_true, decide_eq_true_eq] at hx
        exact hx.1
      rw [he2, hfail] at heok
      cases heok
    · rw [if_neg hc] at hpin
      cases hpin
  · intro q fq hq hok hbig
    exact adm_mem_group has_hardlinks DevIno.fromMeta d fs files hq hok hbig

theorem c6_hash_failure_witness :
    ("a" : String) ∉ (["b", "c"] : List String) :=
  (c6_hash_failure dId fsRetry ["a", "b", "c"] "a" (FileInfo.mk [1] 1 0 0 false)
    (by decide) rfl).1 (LenHash.mk 1 [1]) ["b", "c"] (by decide)

/-- C6 counterexample: hashing `a` fails, yet `a` is not dropped from
consideration: it stays in the pending slot of its size class and is
passed to the hasher again when a third file of that length arrives — the
ghost trace of hasher invocations contains `a` twice. -/
theorem c6_counterexample :
    fsRetry "a" = some (FileInfo.mk [1] 1 0 0 false)
    ∧ (runState has_hardlinks DevIno.fromMeta dId fsRetry
        ["a", "b", "c"]).hashTrace = ["a", "b", "a", "c"]
    ∧ 2 ≤ (runState has_hardlinks DevIno.fromMeta dId fsRetry
        ["a", "b", "c"]).hashTrace.count "a"
    ∧ lookupA (runState has_hardlinks DevIno.fromMeta dId fsRetry
        ["a", "b", "c"]).size_firstfile_map 1 = some (some "a") := by
  decide

/-- C10: in a run without hash I/O errors, the pending-size map has no
entry for a length iff no admitted file of that length was visited, holds
`Some p` iff exactly one admitted file of that length was visited and `p`
is its path, and holds `None` iff at least two were visited — in which
case each of them is in the duplicate index under its own content
identity. -/
theorem c10_pending_slot_invariant (d : List Nat → List Nat)
    (fs : String → Option FileInfo) (files : List String)
    (hnoerr : ∀ q fq, fs q = some fq → fq.hashOk = true) (L : Nat) :
    (lookupA (runState has_hardlinks DevIno.fromMeta d fs
        files).size_firstfile_map L = none
      ↔ classList (admitted has_hardlinks DevIno.fromMeta fs files) L = [])
    ∧ (∀ p : String,
      lookupA (runState has_hardlinks DevIno.fromMeta d fs
          files).size_firstfile_map L = some (some p)
        ↔ ∃ fp, classList (admitted has_hardlinks DevIno.fromMeta fs files) L
            = [(p, fp)])
    ∧ (lookupA (runState has_hardlinks DevIno.fromMeta d fs
        files).size_firstfile_map L = some none
      ↔ 2 ≤ (classList (admitted has_hardlinks DevIno.fromMeta fs files) L).length)
    ∧ (lookupA (runState has_hardlinks DevIno.fromMeta d fs
        files).size_firstfile_map L = some none →
      ∀ e ∈ classList (admitted has_hardlinks DevIno.fromMeta fs files) L,
        ∃ g, lookupA (runState has_hardlinks DevIno.fromMeta d fs
            files).hash_files_map (lenHashOf d e.2) = some g ∧ e.1 ∈ g) := by
  have inv := (run_inv has_hardlinks DevIno.fromMeta d fs files).core
  have hAfs : ∀ e ∈ admitted has_hardlinks DevIno.fromMeta fs files,
      fs e.1 = some e.2 := by
    intro e he
    exact admAux_mem_fs has_hardlinks DevIno.fromMeta fs files [] e.1 e.2 he
  have hsl := inv.slot_char L
  cases hce : classList (admitted has_hardlinks DevIno.fromMeta fs files) L with
  | nil =>
    simp only [slotRef, hce] at hsl
    refine ⟨by simp [hsl], ?_, by simp [hsl], ?_⟩
    · intro p
      simp [hsl]
    · intro h
      rw [hsl] at h
      cases h
  | cons e0 rest =>
    have he0fs : fs e0.1 = some e0.2 := hAfs e0 (classList_head_facts hce).1
    have he0ok := hnoerr _ _ he0fs
    cases rest with
    | nil =>
      have hsl2 : lookupA (runState has_hardlinks DevIno.fromMeta d fs
          files).size_firstfile_map L = some (some e0.1) := by
        rw [hsl]
        simp [slotRef, hce]
      refine ⟨by simp [hsl2], ?_, by simp [hsl2], ?_⟩
      · intro p
        rw [hsl2]
        constructor
        · intro h
          have hp : e0.1 = p := Option.some.inj (Option.some.inj h)
          refine ⟨e0.2, ?_⟩
          rw [← hp]
        · rintro ⟨fp, hfp⟩
          have he : e0 = (p, fp) := (List.cons.injEq _ _ _ _ ▸ hfp).1
          rw [he]
      · intro h
        rw [hsl2] at h
        have := Option.some.inj h
        cases this
    | cons e1 r2 =>
      have hsl2 : lookupA (runState has_hardlinks DevIno.fromMeta d fs
          files).size_firstfile_map L = some none := by
        rw [hsl]
        simp [slotRef, hce, he0ok]
      refine ⟨by simp [hsl2], ?_, by simp [hsl2], ?_⟩
      · intro p
        rw [hsl2]
        simp
      · intro _ e he
        have hecl : e ∈ classList (admitted has_hardlinks DevIno.fromMeta fs
            files) L := by
          rw [hce]
          exact he
        have heA : e ∈ admitted has_hardlinks DevIno.fromMeta fs files :=
          List.mem_of_mem_filter hecl
        have helen : e.2.contents.length = L := by
          have hx := (List.mem_filter.mp
            (show e ∈ List.filter (fun x => decide (x.2.contents.length = L))
              (admitted has_hardlinks DevIno.fromMeta fs files) from hecl)).2
          simpa using hx
        have heok := hnoerr _ _ (hAfs e heA)
        have hbig : 2 ≤ (classList (admitted has_hardlinks DevIno.fromMeta fs
            files) e.2.contents.length).length := by
          rw [helen, hce]
          simp
        exact adm_mem_group has_hardlinks DevIno.fromMeta d fs files heA heok hbig

theorem c10_pending_slot_invariant_witness :
    lookupA (runState has_hardlinks DevIno.fromMeta dId fsAB
      ["a", "b"]).size_firstfile_map 1 = some none :=
  ((c10_pending_slot_invariant dId fsAB ["a", "b"] fsAB_noerr 1).2.2.1).mpr
    (by decide)
